import Mathlib

/-!
# Shallow embedding of the `ron` decoder core

This file embeds the decoding engine of the repository (`src/de.rs` and
`src/de/value.rs`) into Lean and proves properties of the embedding.

Modelling conventions:

* The input cursor (`Bytes` over a byte buffer in the Rust code) is modelled
  as a `List Char` holding the not-yet-consumed input.  The top-level entry
  point `from_str` only admits valid UTF-8, so a character-level model is
  faithful for all inputs reachable from it.
* Fallible operations return `Except Error (α × List Char)` (the value
  produced plus the remaining input).  Rust panics (`panic!`,
  `unimplemented!`) are modelled by a distinct `Failure.panicked` outcome or
  by `Option.none`, as documented at each definition.
* The low-level scanner (the `parse` module providing `Bytes`) is not part
  of the reviewed sources; its primitives are modelled from the spec (§6)
  and are marked `Modelled from the spec:` below.
* Machine floats (`f64`) carry no arithmetic in the reviewed code; a finite
  double is modelled by its exact rational value and the non-finite values
  by explicit extra constructors of `F64`.
-/

deriving instance DecidableEq for Except

namespace Ron

/-- The closed error enumeration of `de.rs` (`enum Error`).  The Rust
variant `Error::Syntax` is rendered `SyntaxViolation` here because its Rust
name collides with a Lean keyword. -/
inductive Error : Type where
  | Eof : Error
  | SyntaxViolation : Error
  | ExpectedArray : Error
  | ExpectedArrayComma : Error
  | ExpectedArrayEnd : Error
  | ExpectedBoolean : Error
  | ExpectedEnum : Error
  | ExpectedChar : Error
  | ExpectedFloat : Error
  | ExpectedInteger : Error
  | ExpectedOption : Error
  | ExpectedOptionEnd : Error
  | ExpectedMap : Error
  | ExpectedMapColon : Error
  | ExpectedMapComma : Error
  | ExpectedMapEnd : Error
  | ExpectedStruct : Error
  | ExpectedStructEnd : Error
  | ExpectedUnit : Error
  | ExpectedStructName : Error
  | ExpectedString : Error
  | ExpectedIdentifier : Error
  | InvalidEscape : Error
  | Message : String → Error
  | TrailingCharacters : Error
deriving DecidableEq

/-- `impl fmt::Display for Error` (de.rs:45-52): only the `Message` variant
is actually formatted; every other variant hits `unimplemented!()`, which
panics.  The panic outcome is modelled by `none`. -/
def Error.fmt : Error → Option String
  | .Message e => some ("Custom message: " ++ e)
  | _ => none

/-- A failure outcome: either a returned `Error` value or a Rust panic
(`panic!` / `unimplemented!`) with its message. -/
inductive Failure : Type where
  | err : Error → Failure
  | panicked : String → Failure
deriving DecidableEq

/-- The type of one decode operation: it consumes a prefix of the remaining
input and produces a value plus the rest, or fails. -/
abbrev P (α : Type) : Type := List Char → Except Error (α × List Char)

/-! ## Scanner primitives (Modelled from the spec, §6) -/

/-- Modelled from the spec: the insignificant-whitespace predicate used by
the scanner's `skip_ws`. -/
def isWsChar (c : Char) : Bool :=
  c = ' ' || c = '\t' || c = '\n' || c = '\r'

/-- Modelled from the spec: `Bytes::skip_ws` — skip insignificant
whitespace. -/
def skipWs (s : List Char) : List Char :=
  s.dropWhile isWsChar

/-- Modelled from the spec: `Bytes::consume(lit)` — consume an exact
literal/keyword; `some rest` on success, `none` (cursor unmoved) when the
input does not start with `lit`. -/
def litMatch : List Char → List Char → Option (List Char)
  | [], s => some s
  | _ :: _, [] => none
  | c :: cs, d :: ds => if c = d then litMatch cs ds else none

/-- `Bytes::consume` used in if-present position (the boolean result is
ignored): consume the literal when it is there, otherwise leave the cursor
where it was. -/
def consumeOpt (lit s : List Char) : List Char :=
  (litMatch lit s).getD s

/-- Modelled from the spec: `Bytes::comma` — consume one comma if present
(no-op otherwise), skipping whitespace around it; used for trailing-comma
tolerance after a composite body. -/
def bytesComma (s : List Char) : List Char :=
  match skipWs s with
  | ',' :: t => skipWs t
  | s1 => s1

/-- pom `space()` as used by the iterator helpers: skip whitespace, always
succeeding. -/
def pomSpace (s : List Char) : List Char :=
  skipWs s

/-- pom `comma()` as used by `CommaSeparated`: whitespace, one mandatory
comma, whitespace; fails (cursor conceptually unmoved) without a comma. -/
def pomComma (s : List Char) : Option (List Char) :=
  match skipWs s with
  | ',' :: t => some (skipWs t)
  | _ => none

/-- The colon parser of `next_value_seed` (`space() * sym(b':') - space()`). -/
def pomColon (s : List Char) : Option (List Char) :=
  match skipWs s with
  | ':' :: t => some (skipWs t)
  | _ => none

/-- Numeric value of a decimal digit character. -/
def digitVal (c : Char) : Nat :=
  c.toNat - 48

/-- Maximal run of decimal digits at the head of the input (run, rest). -/
def digitsScan : List Char → (List Char × List Char)
  | [] => ([], [])
  | c :: t =>
    if c.isDigit then
      let (a, b) := digitsScan t
      (c :: a, b)
    else ([], c :: t)

/-- Decimal value of a digit run. -/
def digitsToNat (ds : List Char) : Nat :=
  ds.foldl (fun acc c => 10 * acc + digitVal c) 0

/-- Narrowing into `w`-bit two's-complement range, as performed by an `as`
style cast: the spec (§4.1) states integer decode "narrows without an
explicit range check". -/
def wrapSigned (w : Nat) (v : Int) : Int :=
  (v + 2 ^ (w - 1)) % 2 ^ w - 2 ^ (w - 1)

/-- Modelled from the spec: `Bytes::signed_integer` monomorphized at target
width `w` — parse an optional minus sign and a non-empty digit run, then
narrow to the target width. -/
def signed_integer (w : Nat) : P Int := fun s =>
  let (neg, s1) :=
    if s.head? = some '-' then (true, s.tail) else (false, s)
  match digitsScan s1 with
  | ([], _) => .error .ExpectedInteger
  | (ds, rest) =>
    let n : Int := digitsToNat ds
    .ok (wrapSigned w (if neg then -n else n), rest)

/-- Modelled from the spec: `Bytes::bool` — parse a boolean literal. -/
def bytesBool : P Bool := fun s =>
  match litMatch "true".toList s with
  | some r => .ok (true, r)
  | none =>
    match litMatch "false".toList s with
    | some r => .ok (false, r)
    | none => .error .ExpectedBoolean

/-- Identifier characters (spec §6: letters/digits/underscore-like token). -/
def isIdentChar (c : Char) : Bool :=
  c.isAlphanum || c = '_'

/-- Maximal run of identifier characters at the head of the input. -/
def identScan : List Char → (List Char × List Char)
  | [] => ([], [])
  | c :: t =>
    if isIdentChar c then
      let (a, b) := identScan t
      (c :: a, b)
    else ([], c :: t)

/-- Modelled from the spec: `Bytes::identifier` — a non-empty identifier
run, surfaced as raw bytes. -/
def identifier : P (List Char) := fun s =>
  match identScan s with
  | ([], _) => .error .ExpectedIdentifier
  | (ds, rest) => .ok (ds, rest)

/-! ## Deserializer entry points (`de.rs`) -/

/-- `Deserializer::end` (de.rs:105-113; renamed, `end` is a Lean keyword):
succeed iff the remaining bytes are empty once whitespace is skipped,
otherwise fail with `TrailingCharacters`. -/
def endCheck (s : List Char) : Except Error Unit :=
  if skipWs s = [] then .ok () else .error .TrailingCharacters

/-- `de::from_str` (de.rs:91-100) for a decode operation `d`: run `d`, then
require `end` to succeed on the rest. -/
def from_str {α : Type} (d : P α) (s : List Char) : Except Error α :=
  match d s with
  | .error e => .error e
  | .ok (v, rest) =>
    match endCheck rest with
    | .error e => .error e
    | .ok _ => .ok v

/-- `deserialize_bool` (de.rs:125-129). -/
def deserialize_bool : P Bool :=
  bytesBool

/-- `deserialize_i8` (de.rs:131-135): `visitor.visit_i8(signed_integer()?)`,
so the scanner primitive is monomorphized at width 8. -/
def deserialize_i8 : P Int :=
  signed_integer 8

/-- `deserialize_i16` (de.rs:137-141): the body is
`visitor.visit_i8(self.bytes.signed_integer()?)` — it calls `visit_i8`, not
`visit_i16`, so the scanner primitive is monomorphized at width 8, not 16. -/
def deserialize_i16 : P Int :=
  signed_integer 8

/-- `deserialize_i32` (de.rs:143-147): `visit_i32`, width 32. -/
def deserialize_i32 : P Int :=
  signed_integer 32

/-- `deserialize_i64` (de.rs:149-153): `visit_i64`, width 64. -/
def deserialize_i64 : P Int :=
  signed_integer 64

/-- `deserialize_unit` (de.rs:253-261): requires the literal `()`. -/
def deserialize_unit : P Unit := fun s =>
  match litMatch "()".toList s with
  | some r => .ok ((), r)
  | none => .error .ExpectedUnit

/-- `deserialize_unit_struct` (de.rs:263-275): consume the type name as a
bare prefix when present, otherwise fall back to the unit rule. -/
def deserialize_unit_struct (name : List Char) : P Unit := fun s =>
  match litMatch name s with
  | some r => .ok ((), r)
  | none => deserialize_unit s

/-! ## The finite-number wrapper (`de/value.rs`) -/

/-- Model of `f64` for the reviewed code: a finite double is identified by
its exact rational value; the non-finite values get explicit constructors.
The code performs no float arithmetic — only the finiteness test, exact
comparison and truncation — so this model is faithful on those
operations. -/
inductive F64 : Type where
  | finite : Rat → F64
  | inf : F64
  | negInf : F64
  | nan : F64
deriving DecidableEq

/-- `f64::is_finite`. -/
def F64.isFinite : F64 → Bool
  | .finite _ => true
  | _ => false

/-- `Number` (de/value.rs:14): wrapper for `f64` that guarantees the inner
value is finite; the payload stores the rational value of that finite
double. -/
structure Number : Type where
  val : Rat
deriving DecidableEq

/-- `Number::new` (de/value.rs:19-25): panics when the argument is not
finite, otherwise wraps it. -/
def Number.new : F64 → Except Failure Number
  | .finite q => .ok ⟨q⟩
  | _ => .error (.panicked "Tried to create Number with a NaN / infinity")

/-- `Number::get` (de/value.rs:28-30). -/
def Number.get (n : Number) : Rat :=
  n.val

/-- Truncation toward zero (the integer part), as `f64 as u64` and
`f64::trunc` do: `Int.tdiv` is the division that rounds toward zero. -/
def ratTrunc (q : Rat) : Int :=
  q.num.tdiv q.den

/-- The `f64 as u64` cast of a finite double: truncate toward zero and
saturate into `[0, 2^64 - 1]`. -/
def f64AsU64 (q : Rat) : Nat :=
  (max 0 (min (ratTrunc q) (2 ^ 64 - 1))).toNat

/-- `impl Hash for Number` (de/value.rs:35-39): the hash input is the single
word `self.0 as u64`. -/
def Number.hashWord (n : Number) : Nat :=
  f64AsU64 n.val

/-! ## The dynamic value model (`de/value.rs`) -/

/-- `enum Value` (de/value.rs:47-57), constructors in Rust declaration
order (this order matters: `Ord` is derived).  The `BTreeMap` payload of
`Map` is modelled by its iteration order: a key-sorted association list.
`String` is modelled as its character list (UTF-8 byte order and code-point
order agree, so the derived lexicographic order is preserved). -/
inductive Value : Type where
  | bool : Bool → Value
  | char : Char → Value
  | map : List (Value × Value) → Value
  | number : Number → Value
  | option : Option Value → Value
  | string : List Char → Value
  | seq : List Value → Value
  | unit : Value

/-- Index of a `Value` constructor in Rust declaration order; the derived
`Ord` compares this discriminant first. -/
def Value.idx : Value → Nat
  | .bool _ => 0
  | .char _ => 1
  | .map _ => 2
  | .number _ => 3
  | .option _ => 4
  | .string _ => 5
  | .seq _ => 6
  | .unit => 7

/-- Comparison of naturals (used for constructor discriminants and for
`char`, whose `Ord` is by code point). -/
def cmpNat (a b : Nat) : Ordering :=
  if a < b then .lt else if b < a then .gt else .eq

/-- `Ord` on `bool`: `false < true`. -/
def cmpBool : Bool → Bool → Ordering
  | false, false => .eq
  | false, true => .lt
  | true, false => .gt
  | true, true => .eq

/-- `Ord` on `char`: by code point. -/
def cmpChar (a b : Char) : Ordering :=
  cmpNat a.toNat b.toNat

/-- Comparison of the rational values of finite doubles: on finite values,
`f64` comparison is exact numeric comparison. -/
def cmpRat (a b : Rat) : Ordering :=
  if a < b then .lt else if b < a then .gt else .eq

mutual

/-- The derived total order on `Value` (`#[derive(Ord, ...)]`,
de/value.rs:47): discriminant first, then lexicographic structural
comparison of the payloads; `None < Some`, lists lexicographically. -/
def Value.cmp : Value → Value → Ordering
  | .bool a, .bool b => cmpBool a b
  | .char a, .char b => cmpChar a b
  | .map a, .map b => cmpEntries a b
  | .number a, .number b => cmpRat a.val b.val
  | .option a, .option b => cmpOpt a b
  | .string a, .string b => cmpChars a b
  | .seq a, .seq b => cmpValues a b
  | .unit, .unit => .eq
  | x, y => cmpNat x.idx y.idx
termination_by structural x _ => x

/-- `Ord` on `Option<Value>`: `None < Some`, payloads recursively. -/
def cmpOpt : Option Value → Option Value → Ordering
  | .none, .none => .eq
  | .none, .some _ => .lt
  | .some _, .none => .gt
  | .some a, .some b => Value.cmp a b
termination_by structural a _ => a

/-- Lexicographic comparison of character lists (`Ord` on `String`). -/
def cmpChars : List Char → List Char → Ordering
  | [], [] => .eq
  | [], _ :: _ => .lt
  | _ :: _, [] => .gt
  | a :: as, b :: bs =>
    match cmpChar a b with
    | .eq => cmpChars as bs
    | o => o

/-- Lexicographic comparison of value lists (`Ord` on `Vec<Value>`). -/
def cmpValues : List Value → List Value → Ordering
  | [], [] => .eq
  | [], _ :: _ => .lt
  | _ :: _, [] => .gt
  | a :: as, b :: bs =>
    match Value.cmp a b with
    | .eq => cmpValues as bs
    | o => o
termination_by structural xs _ => xs

/-- Lexicographic comparison of entry lists (`Ord` on
`BTreeMap<Value, Value>` compares the sorted entry sequences). -/
def cmpEntries : List (Value × Value) → List (Value × Value) → Ordering
  | [], [] => .eq
  | [], _ :: _ => .lt
  | _ :: _, [] => .gt
  | (k, v) :: as, (k2, v2) :: bs =>
    match Value.cmp k k2 with
    | .eq =>
      match Value.cmp v v2 with
      | .eq => cmpEntries as bs
      | o => o
    | o => o
termination_by structural xs _ => xs

end

/-- `BTreeMap::insert` on the sorted-association-list model of the map:
place the new entry at its ordered position; an existing entry with an
`Ord`-equal key is replaced. -/
def insertSorted (k v : Value) : List (Value × Value) → List (Value × Value)
  | [] => [(k, v)]
  | (k2, v2) :: t =>
    match Value.cmp k k2 with
    | .lt => (k, v) :: (k2, v2) :: t
    | .eq => (k, v) :: t
    | .gt => (k2, v2) :: insertSorted k v t

/-- The fold performed by `ValueVisitor::visit_map` (de/value.rs:176-186):
start from the empty `BTreeMap` and `insert` each streamed entry in order. -/
def buildMap (entries : List (Value × Value)) : List (Value × Value) :=
  entries.foldl (fun res e => insertSorted e.1 e.2 res) []

/-- `ValueVisitor::visit_map`: the `MapAccess` stream of decoded key/value
entries (in input order) is abstracted as the input list. -/
def visit_map (entries : List (Value × Value)) : Value :=
  Value.map (buildMap entries)

/-- `BTreeMap::get` on the sorted-association-list model: the value of the
first (and, in a well-formed map, only) entry whose key is `Ord`-equal to
`k`. -/
def mapGet (k : Value) : List (Value × Value) → Option Value
  | [] => none
  | (k2, v2) :: t =>
    match Value.cmp k k2 with
    | .eq => some v2
    | _ => mapGet k t

/-- The value associated with `k` by the *last* entry of the input stream
carrying an `Ord`-equal key — the reference semantics for last-write-wins
map construction. -/
def lastAssoc (entries : List (Value × Value)) (k : Value) : Option Value :=
  entries.foldl (fun acc e => if Value.cmp e.1 k = .eq then some e.2 else acc) none

/-- Key-sortedness of the stored entry sequence of a map (strictly
ascending in the derived `Value` order). -/
def entriesSortedByKey (m : List (Value × Value)) : Prop :=
  List.Chain' (fun a b => Value.cmp a.1 b.1 = .lt) m

/-! ## The shape-agnostic entry point (`deserialize_any`, `Value::from_str`) -/

/-- `deserialize_any` (de.rs:119-123): the body is `panic!("Give me
some!")` — it panics before looking at the visitor or the input. -/
def deserialize_any {β : Type} : List Char → Except Failure (β × List Char) :=
  fun _ => .error (.panicked "Give me some!")

/-- `Value::from_str` (de/value.rs:60-63): `Value::deserialize` feeds
`ValueVisitor` to `deserialize_any` on a fresh deserializer over `s`. -/
def Value.from_str (s : List Char) : Except Failure Value :=
  match deserialize_any (β := Value) s with
  | .ok (v, _) => .ok v
  | .error e => .error e

/-! ## String decoding (`deserialize_str`, de.rs:197-213) -/

/-- `special_char` (de.rs:200-202): the eight recognized two-character
escapes, mapped to their character equivalents. -/
def specialChar : Char → Option Char
  | '\\' => some '\\'
  | '/' => some '/'
  | '"' => some '"'
  | 'b' => some (Char.ofNat 8)
  | 'f' => some (Char.ofNat 12)
  | 'n' => some '\n'
  | 'r' => some '\r'
  | 't' => some (Char.ofNat 9)
  | _ => none

/-- The repetition inside `char_string` (de.rs:204): a maximal run of
direct characters (anything but backslash and quote) interleaved with
recognized escapes; the run stops at a quote, at an unrecognized escape or
at a trailing lone backslash.  Returns (collected characters, rest). -/
def charStringBody : List Char → (List Char × List Char)
  | [] => ([], [])
  | ['\\'] => ([], ['\\'])
  | '\\' :: e :: t =>
    match specialChar e with
    | some r =>
      let (a, b) := charStringBody t
      (r :: a, b)
    | none => ([], '\\' :: e :: t)
  | '"' :: t => ([], '"' :: t)
  | c :: t =>
    let (a, b) := charStringBody t
    (c :: a, b)

/-- `char_string` (de.rs:204): the run above followed by
`String::from_utf8`.  In this character-level model the collected run is
always valid text, so the conversion (the only failure point of
`char_string`) cannot fail; on raw bytes it fails exactly on invalid UTF-8
runs. -/
def char_string (s : List Char) : Option (List Char × List Char) :=
  some (charStringBody s)

/-- Value of a hexadecimal digit. -/
def hexVal (c : Char) : Option Nat :=
  if c.isDigit then some (c.toNat - 48)
  else if 'a' ≤ c ∧ c ≤ 'f' then some (c.toNat - 87)
  else if 'A' ≤ c ∧ c ≤ 'F' then some (c.toNat - 55)
  else none

/-- `utf16_char.repeat(0..)` (de.rs:205-206): a maximal run of `\uXXXX`
escapes (exactly 4 hex digits each), collected as 16-bit code units. -/
def utf16Units : List Char → (List Nat × List Char)
  | '\\' :: 'u' :: h1 :: h2 :: h3 :: h4 :: rest =>
    match hexVal h1, hexVal h2, hexVal h3, hexVal h4 with
    | some a, some b, some c, some d =>
      let (us, r) := utf16Units rest
      ((((a * 16 + b) * 16 + c) * 16 + d) :: us, r)
    | _, _, _, _ => ([], '\\' :: 'u' :: h1 :: h2 :: h3 :: h4 :: rest)
  | s => ([], s)

/-- U+FFFD. -/
def replacementChar : Char :=
  Char.ofNat 0xFFFD

/-- `decode_utf16(...).map(|r| r.unwrap_or(REPLACEMENT_CHARACTER))`
(de.rs:206): UTF-16 reassembly where an unpaired or invalid surrogate half
becomes the replacement character instead of an error. -/
def decodeUtf16 : List Nat → List Char
  | [] => []
  | [u] =>
    if u < 0xD800 || 0xDFFF < u then [Char.ofNat u] else [replacementChar]
  | u :: u2 :: rest =>
    if u < 0xD800 || 0xDFFF < u then
      Char.ofNat u :: decodeUtf16 (u2 :: rest)
    else if u ≤ 0xDBFF then
      if 0xDC00 ≤ u2 && u2 ≤ 0xDFFF then
        Char.ofNat (0x10000 + (u - 0xD800) * 0x400 + (u2 - 0xDC00)) :: decodeUtf16 rest
      else
        replacementChar :: decodeUtf16 (u2 :: rest)
    else
      replacementChar :: decodeUtf16 (u2 :: rest)

/-- `deserialize_str` (de.rs:197-213): `sym(b'"') * (char_string |
utf16_string) - sym(b'"')` under pom semantics.  The ordered choice `|`
tries `utf16_string` only when `char_string` itself fails; a failure of the
*later* closing-quote parser does not reopen the committed choice.  Any
parse failure is surfaced as `ExpectedString`. -/
def deserialize_str : P (List Char) := fun s =>
  match s with
  | '"' :: rest =>
    match char_string rest with
    | some (chars, r1) =>
      match r1 with
      | '"' :: r2 => .ok (chars, r2)
      | _ => .error .ExpectedString
    | none =>
      match utf16Units rest with
      | (us, r1) =>
        match r1 with
        | '"' :: r2 => .ok (decodeUtf16 us, r2)
        | _ => .error .ExpectedString
  | _ => .error .ExpectedString

/-! ## Comma-separated iteration (`CommaSeparated`, de.rs:427-499) -/

/-- `SeqAccess::next_element_seed` (de.rs:442-462) iterated by a greedy
visitor (one that keeps requesting elements until `None`, as `Vec`'s or
`ValueVisitor`'s do): stop when the current byte is the terminator; demand
a comma before every element but the first, re-checking the terminator
after the comma so that a trailing comma is tolerated; skip whitespace and
decode the element.  The `fuel` argument bounds the number of iterations
(the Rust loop is bounded by the input length because every iteration
consumes input; theorems are stated with sufficient fuel). -/
def seqElems {α : Type} (p : P α) (t : Char) : Nat → Bool → P (List α)
  | 0, _, _ => .error .Eof
  | fuel + 1, first, s =>
    let proceed : List Char → Except Error (List α × List Char) := fun s2 =>
      match p (pomSpace s2) with
      | .error e => .error e
      | .ok (v, r) =>
        match seqElems p t fuel false r with
        | .error e => .error e
        | .ok (vs, r2) => .ok (v :: vs, r2)
    if s.head? = some t then .ok ([], s)
    else if first then proceed s
    else
      match pomComma s with
      | none => .error .ExpectedArrayComma
      | some s2 =>
        if s2.head? = some t then .ok ([], s2) else proceed s2

/-- `next_element_seed` iterated by a fixed-arity visitor (a tuple visitor
requests exactly `n` elements and then stops; receiving `None` early makes
the derived visitor fail with a length error, surfaced through
`Error::custom` as a `Message`). -/
def seqElemsN {α : Type} (p : P α) (t : Char) : Nat → Bool → P (List α)
  | 0, _, s => .ok ([], s)
  | n + 1, first, s =>
    let proceed : List Char → Except Error (List α × List Char) := fun s2 =>
      match p (pomSpace s2) with
      | .error e => .error e
      | .ok (v, r) =>
        match seqElemsN p t n false r with
        | .error e => .error e
        | .ok (vs, r2) => .ok (v :: vs, r2)
    if s.head? = some t then .error (.Message "invalid length")
    else if first then proceed s
    else
      match pomComma s with
      | none => .error .ExpectedArrayComma
      | some s2 =>
        if s2.head? = some t then .error (.Message "invalid length") else proceed s2

/-- `MapAccess::next_key_seed` / `next_value_seed` (de.rs:468-498) iterated
by a greedy visitor: the key side follows the same comma/terminator
protocol (with `ExpectedMapComma`); after each key a colon (with
surrounding whitespace) is mandatory (`ExpectedMapColon`) before the
value. -/
def mapEntries {κ α : Type} (kP : P κ) (vP : P α) (t : Char) :
    Nat → Bool → P (List (κ × α))
  | 0, _, _ => .error .Eof
  | fuel + 1, first, s =>
    let proceed : List Char → Except Error (List (κ × α) × List Char) := fun s2 =>
      match kP (pomSpace s2) with
      | .error e => .error e
      | .ok (k, r) =>
        match pomColon r with
        | none => .error .ExpectedMapColon
        | some r2 =>
          match vP r2 with
          | .error e => .error e
          | .ok (v, r3) =>
            match mapEntries kP vP t fuel false r3 with
            | .error e => .error e
            | .ok (es, r4) => .ok ((k, v) :: es, r4)
    if s.head? = some t then .ok ([], s)
    else if first then proceed s
    else
      match pomComma s with
      | none => .error .ExpectedMapComma
      | some s2 =>
        if s2.head? = some t then .ok ([], s2) else proceed s2

/-- `deserialize_seq` (de.rs:300-315): `[`, greedy comma-separated
elements, optional trailing comma, `]`. -/
def deserialize_seq {α : Type} (p : P α) : P (List α) := fun s =>
  match litMatch ['['] s with
  | none => .error .ExpectedArray
  | some s1 =>
    match seqElems p ']' (s1.length + 1) true s1 with
    | .error e => .error e
    | .ok (vs, r) =>
      match litMatch [']'] (bytesComma r) with
      | some r2 => .ok (vs, r2)
      | none => .error .ExpectedArrayEnd

/-- `deserialize_tuple` (de.rs:323-342): like a sequence but delimited by
parentheses and driven by a fixed-arity visitor. -/
def deserialize_tuple {α : Type} (n : Nat) (p : P α) : P (List α) := fun s =>
  match litMatch ['('] s with
  | none => .error .ExpectedArray
  | some s1 =>
    match seqElemsN p ')' n true s1 with
    | .error e => .error e
    | .ok (vs, r) =>
      match litMatch [')'] (bytesComma r) with
      | some r2 => .ok (vs, r2)
      | none => .error .ExpectedArrayEnd

/-- `deserialize_map` (de.rs:356-371): `{`, greedy comma-separated
`key: value` entries, optional trailing comma, `}`. -/
def deserialize_map {κ α : Type} (kP : P κ) (vP : P α) : P (List (κ × α)) := fun s =>
  match litMatch ['{'] s with
  | none => .error .ExpectedMap
  | some s1 =>
    match mapEntries kP vP '}' (s1.length + 1) true s1 with
    | .error e => .error e
    | .ok (es, r) =>
      match litMatch ['}'] (bytesComma r) with
      | some r2 => .ok (es, r2)
      | none => .error .ExpectedMapEnd

/-- `deserialize_struct` (de.rs:373-395): optional type name, `(`, greedy
field-name/value entries (field identifiers through
`deserialize_identifier` → `Bytes::identifier`), optional trailing comma,
`)`. -/
def deserialize_struct {α : Type} (name : List Char) (vP : P α) :
    P (List (List Char × α)) := fun s =>
  let s0 := consumeOpt name s
  match litMatch ['('] s0 with
  | none => .error .ExpectedStruct
  | some s1 =>
    match mapEntries identifier vP ')' (s1.length + 1) true s1 with
    | .error e => .error e
    | .ok (es, r) =>
      match litMatch [')'] (bytesComma r) with
      | some r2 => .ok (es, r2)
      | none => .error .ExpectedStructEnd

/-! ## Renderings of comma-separated texts

The trailing-comma statements quantify over texts built from a non-empty
list of element texts: `e0 , e1 , … , en [,] t`.  `renderTail` builds the
part after the first element (each further element preceded by one comma),
followed by the optional trailing comma and the closing delimiter. -/

/-- The text after the first element: `, e1 , … , en [,] t`. -/
def renderTail (items : List (List Char)) (trailing : Bool) (t : Char) : List Char :=
  items.foldr (fun e acc => ',' :: (e ++ acc))
    ((if trailing then [','] else []) ++ [t])

/-- A full comma-separated text: `o e0 , e1 , … , en [,] t`. -/
def renderElems (o : Char) (e0 : List Char) (items : List (List Char))
    (trailing : Bool) (t : Char) : List Char :=
  o :: (e0 ++ renderTail items trailing t)

/-- A well-behaved element text for the comma-separated protocol with
terminator `t`: non-empty, not starting with whitespace, the terminator or
a comma, and parsed by `p` to exactly `v` whenever followed by a comma or
the terminator. -/
def ElemOk {α : Type} (p : P α) (t : Char) (e : List Char) (v : α) : Prop :=
  e ≠ [] ∧
    (∀ c, e.head? = some c → isWsChar c = false ∧ c ≠ t ∧ c ≠ ',') ∧
    ∀ tail, (tail.head? = some ',' ∨ tail.head? = some t) →
      p (e ++ tail) = .ok (v, tail)

/-- A well-behaved key text: parsed by `kP` to exactly `k` whenever
followed by the colon of its entry. -/
def KeyOk {κ : Type} (kP : P κ) (t : Char) (e : List Char) (k : κ) : Prop :=
  e ≠ [] ∧
    (∀ c, e.head? = some c → isWsChar c = false ∧ c ≠ t ∧ c ≠ ',') ∧
    ∀ tail, tail.head? = some ':' → kP (e ++ tail) = .ok (k, tail)

/-- A well-behaved value text of a map/struct entry. -/
def ValOk {α : Type} (vP : P α) (t : Char) (e : List Char) (v : α) : Prop :=
  e ≠ [] ∧
    (∀ c, e.head? = some c → isWsChar c = false) ∧
    ∀ tail, (tail.head? = some ',' ∨ tail.head? = some t) →
      vP (e ++ tail) = .ok (v, tail)

/-- The rendered text of one map/struct entry: `key : value` without
whitespace. -/
def renderEntry (ke ve : List Char) : List Char :=
  ke ++ ':' :: ve

/-! ## Basic lemmas about the scanner model -/

theorem skipWs_cons_not_ws {c : Char} (h : isWsChar c = false) (s : List Char) :
    skipWs (c :: s) = c :: s := by
  simp [skipWs, List.dropWhile_cons, h]

theorem litMatch_self_append (l t : List Char) : litMatch l (l ++ t) = some t := by
  induction l with
  | nil => rfl
  | cons c cs ih => simp [litMatch, ih]

theorem litMatch_self (l : List Char) : litMatch l l = some [] := by
  have h := litMatch_self_append l []
  rwa [List.append_nil] at h

theorem consumeOpt_self_append (l t : List Char) : consumeOpt l (l ++ t) = t := by
  simp [consumeOpt, litMatch_self_append]

/-! ## C3: the end-of-input check of `from_str` -/

/-- **C3.** For every decode operation and input, `from_str` succeeds
exactly when the decode succeeds and its remainder is empty after skipping
whitespace; a non-whitespace remainder after a successful decode yields
`TrailingCharacters`; a whitespace-only remainder is never an error. -/
theorem from_str_trailing_contract {α : Type} (d : P α) (s : List Char) :
    (∀ v : α, from_str d s = .ok v ↔ ∃ rest, d s = .ok (v, rest) ∧ skipWs rest = []) ∧
      (∀ v rest, d s = .ok (v, rest) → skipWs rest ≠ [] →
        from_str d s = .error .TrailingCharacters) ∧
      ∀ v rest, d s = .ok (v, rest) → (∀ c ∈ rest, isWsChar c = true) →
        from_str d s = .ok v := by
  have hws : ∀ rest : List Char, (∀ c ∈ rest, isWsChar c = true) → skipWs rest = [] := by
    intro rest h
    simpa [skipWs, List.dropWhile_eq_nil_iff] using h
  refine ⟨?_, ?_, ?_⟩
  · intro v
    unfold from_str endCheck
    cases hd : d s with
    | error e => simp
    | ok vr =>
      obtain ⟨v0, rest⟩ := vr
      by_cases hw : skipWs rest = [] <;> simp [hw]
      · constructor
        · rintro rfl
          exact ⟨rest, ⟨rfl, rfl⟩, hw⟩
        · rintro ⟨r, ⟨rfl, rfl⟩, _⟩
          rfl
  · intro v rest hd hw
    unfold from_str endCheck
    rw [hd]
    simp [hw]
  · intro v rest hd hw
    unfold from_str endCheck
    rw [hd]
    simp [hws rest hw]

/-- Witness for C3 at a concrete decode: `true` followed by junk is a
trailing-characters error, `true` followed by whitespace decodes. -/
theorem from_str_trailing_contract_witness :
    from_str deserialize_bool "true  x".toList = .error .TrailingCharacters ∧
      from_str deserialize_bool "true  ".toList = .ok true :=
  ⟨(from_str_trailing_contract deserialize_bool "true  x".toList).2.1 true "  x".toList
      (by decide) (by decide),
    (from_str_trailing_contract deserialize_bool "true  ".toList).2.2 true "  ".toList
      (by decide) (by decide)⟩

/-! ## C5: the finite-number construction contract -/

/-- **C5.** `Number::new` panics exactly on non-finite arguments; on every
finite argument it returns a wrapper whose `get` is that value; a success
implies finiteness (so non-finite construction is never a recoverable
error value). -/
theorem number_new_finite_contract (v : F64) :
    (v.isFinite = true → ∃ n : Number, Number.new v = .ok n ∧ F64.finite n.get = v) ∧
      (v.isFinite = false →
        Number.new v = .error (.panicked "Tried to create Number with a NaN / infinity")) ∧
      ∀ n : Number, Number.new v = .ok n → v.isFinite = true := by
  cases v <;> simp [Number.new, F64.isFinite, Number.get]

/-- Witness for C5: construction succeeds on the finite value 5/2 and
panics on NaN. -/
theorem number_new_finite_contract_witness :
    (∃ n : Number, Number.new (.finite (mkRat 5 2)) = .ok n ∧
        F64.finite n.get = .finite (mkRat 5 2)) ∧
      Number.new .nan = .error (.panicked "Tried to create Number with a NaN / infinity") :=
  ⟨(number_new_finite_contract (.finite (mkRat 5 2))).1 rfl,
    (number_new_finite_contract .nan).2.1 rfl⟩

/-! ## C6: the coarse hash of finite numbers -/

/-- **C6.** The hash word of a finite `Number` depends only on its
truncated integer part, and equal numbers hash equal. -/
theorem number_hash_truncation_contract (n1 n2 : Number) :
    (ratTrunc n1.val = ratTrunc n2.val → n1.hashWord = n2.hashWord) ∧
      (n1 = n2 → n1.hashWord = n2.hashWord) := by
  constructor
  · intro h
    simp [Number.hashWord, f64AsU64, h]
  · intro h
    rw [h]

/-- Witness for C6: 1.25 and 1.75 share the truncated part 1, are distinct
values, and hash identically. -/
theorem number_hash_truncation_contract_witness :
    ratTrunc (mkRat 5 4) = ratTrunc (mkRat 7 4) ∧
      Number.hashWord ⟨mkRat 5 4⟩ = Number.hashWord ⟨mkRat 7 4⟩ ∧
      (mkRat 5 4 : Rat) ≠ mkRat 7 4 :=
  ⟨by decide,
    (number_hash_truncation_contract ⟨mkRat 5 4⟩ ⟨mkRat 7 4⟩).1 (by decide),
    by decide⟩

/-! ## C2: the shape-agnostic entry point is a stub -/

/-- **C2.** Decoding into the dynamic value model through
`Value::from_str` (and thus `deserialize_any`) fails on every input — the
stub panics before producing any value. -/
theorem value_from_str_never_succeeds (s : List Char) :
    Value.from_str s = .error (.panicked "Give me some!") :=
  rfl

/-! ## C9: formatting an error for display -/

/-- **C9 counterexample.** Formatting the `Eof` error kind does not return
a message: it hits `unimplemented!()` and aborts, refuting totality of the
display operation. -/
theorem error_fmt_eof_aborts : Error.fmt .Eof = none :=
  rfl

/-- **C9 (amended).** Formatting returns a message exactly for the
custom-message kind; every other kind aborts (`unimplemented!`). -/
theorem error_fmt_message_only :
    (∀ m : String, Error.fmt (.Message m) = some ("Custom message: " ++ m)) ∧
      ∀ e : Error, (∀ m : String, e ≠ .Message m) → Error.fmt e = none := by
  constructor
  · intro m
    rfl
  · intro e he
    cases e <;> first | rfl | exact absurd rfl (he _)

/-- Witness for C9 (amended) at the `TrailingCharacters` kind. -/
theorem error_fmt_message_only_witness :
    Error.fmt .TrailingCharacters = none :=
  error_fmt_message_only.2 .TrailingCharacters fun _ h => Error.noConfusion h

/-! ## C1: 16-bit signed-integer decode -/

/-- **C1 evaluation.** `deserialize_i16` narrows through `visit_i8` (width
8): the literal 300, although well inside the signed 16-bit range, decodes
to 44 = 300 mod 256, exactly as `deserialize_i8` does — unlike
`deserialize_i32`, whose matching-width call surfaces 300. -/
theorem deserialize_i16_narrows_to_8_bits :
    deserialize_i16 "300".toList = .ok (44, []) ∧
      deserialize_i8 "300".toList = .ok (44, []) ∧
      deserialize_i32 "300".toList = .ok (300, []) ∧
      (-32768 ≤ (300 : Int) ∧ (300 : Int) ≤ 32767) ∧ (44 : Int) ≠ 300 :=
  ⟨by decide, by decide, by decide, by decide, by decide⟩

/-! ## C10: bare-name unit struct followed by `()` -/

/-- **C10.** For a named unit type whose name starts with a letter, the
input `Name()` is rejected with `TrailingCharacters` (the decode consumes
only the bare name), although both `Name` and `()` alone decode. -/
theorem unit_struct_name_parens_rejected (c : Char) (nameTail : List Char)
    (h : c.isAlpha = true) :
    from_str (deserialize_unit_struct (c :: nameTail)) ((c :: nameTail) ++ "()".toList) =
        .error .TrailingCharacters ∧
      from_str (deserialize_unit_struct (c :: nameTail)) (c :: nameTail) = .ok () ∧
      from_str (deserialize_unit_struct (c :: nameTail)) "()".toList = .ok () := by
  have hc : c ≠ '(' := by
    intro hc
    rw [hc] at h
    exact absurd h (by decide)
  refine ⟨?_, ?_, ?_⟩
  · unfold from_str deserialize_unit_struct
    rw [litMatch_self_append]
    rfl
  · unfold from_str deserialize_unit_struct
    rw [litMatch_self]
    rfl
  · have hnone : litMatch (c :: nameTail) "()".toList = none := by
      show litMatch (c :: nameTail) ['(', ')'] = none
      unfold litMatch
      rw [if_neg hc]
    unfold from_str deserialize_unit_struct
    rw [hnone]
    rfl

/-- Witness for C10 with the concrete name `Name`. -/
theorem unit_struct_name_parens_rejected_witness :
    from_str (deserialize_unit_struct "Name".toList) "Name()".toList =
        .error .TrailingCharacters ∧
      from_str (deserialize_unit_struct "Name".toList) "Name".toList = .ok () ∧
      from_str (deserialize_unit_struct "Name".toList) "()".toList = .ok () :=
  unit_struct_name_parens_rejected 'N' "ame".toList (by decide)

/-! ## C8: string decoding and the dead `\uXXXX` alternative -/

/-- **C8 evaluation.** A string literal made of `\uXXXX` escapes is
rejected with `ExpectedString`: `char_string` matches the empty direct run
and the committed choice then fails on the closing-quote check, never
retrying `utf16_string` — although the UTF-16 reassembly itself would
produce `"A"`.  Direct bodies with recognized escapes decode, and a
missing closing quote is `ExpectedString`. -/
theorem deserialize_str_utf16_dead :
    deserialize_str "\"\\u0041\"".toList = .error .ExpectedString ∧
      decodeUtf16 [0x41] = ['A'] ∧
      deserialize_str "\"a\\nb\"".toList = .ok ("a\nb".toList, []) ∧
      deserialize_str "\"abc".toList = .error .ExpectedString :=
  ⟨by decide, by decide, by decide, by decide⟩

/-! ## Order lemmas for `Value.cmp` (needed for the map-construction claim) -/

theorem cmpNat_swap (a b : Nat) : cmpNat b a = (cmpNat a b).swap := by
  unfold cmpNat
  rcases Nat.lt_trichotomy a b with h | rfl | h
  · simp [h, Nat.lt_asymm h, Ordering.swap]
  · simp [Nat.lt_irrefl, Ordering.swap]
  · simp [h, Nat.lt_asymm h, Ordering.swap]

theorem cmpNat_eq {a b : Nat} (h : cmpNat a b = .eq) : a = b := by
  unfold cmpNat at h
  split at h
  · simp at h
  · split at h
    · simp at h
    · omega

theorem cmpRat_swap (a b : Rat) : cmpRat b a = (cmpRat a b).swap := by
  unfold cmpRat
  rcases lt_trichotomy a b with h | rfl | h
  · simp [h, lt_asymm h, Ordering.swap]
  · simp [lt_irrefl, Ordering.swap]
  · simp [h, lt_asymm h, Ordering.swap]

theorem cmpRat_eq {a b : Rat} (h : cmpRat a b = .eq) : a = b := by
  unfold cmpRat at h
  split at h
  · simp at h
  next h1 =>
    split at h
    · simp at h
    next h2 => exact le_antisymm (le_of_not_lt h2) (le_of_not_lt h1)

theorem cmpRat_refl (a : Rat) : cmpRat a a = .eq := by
  simp [cmpRat, lt_irrefl]

theorem cmpBool_swap (a b : Bool) : cmpBool b a = (cmpBool a b).swap := by
  cases a <;> cases b <;> rfl

theorem cmpBool_eq {a b : Bool} (h : cmpBool a b = .eq) : a = b := by
  cases a <;> cases b <;> first | rfl | exact nomatch h

theorem cmpBool_refl (a : Bool) : cmpBool a a = .eq := by
  cases a <;> rfl

theorem cmpChar_swap (a b : Char) : cmpChar b a = (cmpChar a b).swap :=
  cmpNat_swap a.toNat b.toNat

theorem cmpChar_eq {a b : Char} (h : cmpChar a b = .eq) : a = b :=
  Char.eq_of_val_eq (UInt32.toNat.inj (cmpNat_eq h))

theorem cmpChar_refl (a : Char) : cmpChar a a = .eq := by
  simp [cmpChar, cmpNat, Nat.lt_irrefl]

theorem cmpChars_swap : (xs ys : List Char) → cmpChars ys xs = (cmpChars xs ys).swap
  | [], [] => rfl
  | [], _ :: _ => rfl
  | _ :: _, [] => rfl
  | a :: as, b :: bs => by
    simp only [cmpChars]
    rw [cmpChar_swap a b]
    cases cmpChar a b <;> simp [Ordering.swap, cmpChars_swap as bs]

theorem cmpChars_eq : (xs ys : List Char) → cmpChars xs ys = .eq → xs = ys
  | [], [] => fun _ => rfl
  | [], _ :: _ => fun h => nomatch h
  | _ :: _, [] => fun h => nomatch h
  | a :: as, b :: bs => fun h => by
    simp only [cmpChars] at h
    cases hc : cmpChar a b <;> rw [hc] at h
    · exact absurd h (by simp)
    · rw [cmpChar_eq hc, cmpChars_eq as bs h]
    · exact absurd h (by simp)

theorem cmpChars_refl : (xs : List Char) → cmpChars xs xs = .eq
  | [] => rfl
  | a :: as => by
    simp [cmpChars, cmpChar_refl a, cmpChars_refl as]

mutual

theorem Value.cmp_swap : (x y : Value) → Value.cmp y x = (Value.cmp x y).swap
  | .bool a, .bool b => by
    simp only [Value.cmp]
    exact cmpBool_swap a b
  | .char a, .char b => by
    simp only [Value.cmp]
    exact cmpChar_swap a b
  | .map a, .map b => by
    simp only [Value.cmp]
    exact cmpEntries_swap a b
  | .number a, .number b => by
    simp only [Value.cmp]
    exact cmpRat_swap a.val b.val
  | .option a, .option b => by
    simp only [Value.cmp]
    exact cmpOpt_swap a b
  | .string a, .string b => by
    simp only [Value.cmp]
    exact cmpChars_swap a b
  | .seq a, .seq b => by
    simp only [Value.cmp]
    exact cmpValues_swap a b
  | .unit, .unit => rfl
  | .bool _, .char _
  | .bool _, .map _
  | .bool _, .number _
  | .bool _, .option _
  | .bool _, .string _
  | .bool _, .seq _
  | .bool _, .unit
  | .char _, .bool _
  | .char _, .map _
  | .char _, .number _
  | .char _, .option _
  | .char _, .string _
  | .char _, .seq _
  | .char _, .unit
  | .map _, .bool _
  | .map _, .char _
  | .map _, .number _
  | .map _, .option _
  | .map _, .string _
  | .map _, .seq _
  | .map _, .unit
  | .number _, .bool _
  | .number _, .char _
  | .number _, .map _
  | .number _, .option _
  | .number _, .string _
  | .number _, .seq _
  | .number _, .unit
  | .option _, .bool _
  | .option _, .char _
  | .option _, .map _
  | .option _, .number _
  | .option _, .string _
  | .option _, .seq _
  | .option _, .unit
  | .string _, .bool _
  | .string _, .char _
  | .string _, .map _
  | .string _, .number _
  | .string _, .option _
  | .string _, .seq _
  | .string _, .unit
  | .seq _, .bool _
  | .seq _, .char _
  | .seq _, .map _
  | .seq _, .number _
  | .seq _, .option _
  | .seq _, .string _
  | .seq _, .unit
  | .unit, .bool _
  | .unit, .char _
  | .unit, .map _
  | .unit, .number _
  | .unit, .option _
  | .unit, .string _
  | .unit, .seq _ => rfl

theorem cmpOpt_swap : (a b : Option Value) → cmpOpt b a = (cmpOpt a b).swap
  | .none, .none => rfl
  | .none, .some _ => rfl
  | .some _, .none => rfl
  | .some a, .some b => by
    simp only [cmpOpt]
    exact Value.cmp_swap a b

theorem cmpValues_swap : (xs ys : List Value) → cmpValues ys xs = (cmpValues xs ys).swap
  | [], [] => rfl
  | [], _ :: _ => rfl
  | _ :: _, [] => rfl
  | a :: as, b :: bs => by
    simp only [cmpValues]
    rw [Value.cmp_swap a b]
    cases Value.cmp a b <;> simp [Ordering.swap, cmpValues_swap as bs]

theorem cmpEntries_swap :
    (xs ys : List (Value × Value)) → cmpEntries ys xs = (cmpEntries xs ys).swap
  | [], [] => rfl
  | [], _ :: _ => rfl
  | _ :: _, [] => rfl
  | (k, v) :: as, (k2, v2) :: bs => by
    simp only [cmpEntries]
    rw [Value.cmp_swap k k2, Value.cmp_swap v v2]
    cases Value.cmp k k2 <;> cases Value.cmp v v2 <;>
      simp [Ordering.swap, cmpEntries_swap as bs]

end

mutual

theorem Value.cmp_eq : (x y : Value) → Value.cmp x y = .eq → x = y
  | .bool a, .bool b => fun h => congrArg Value.bool (cmpBool_eq h)
  | .char a, .char b => fun h => congrArg Value.char (cmpChar_eq h)
  | .map a, .map b => fun h => congrArg Value.map (cmpEntries_eq a b h)
  | .number a, .number b => fun h => by
    have := cmpRat_eq (a := a.val) (b := b.val) h
    cases a
    cases b
    simp_all
  | .option a, .option b => fun h => congrArg Value.option (cmpOpt_eq a b h)
  | .string a, .string b => fun h => congrArg Value.string (cmpChars_eq a b h)
  | .seq a, .seq b => fun h => congrArg Value.seq (cmpValues_eq a b h)
  | .unit, .unit => fun _ => rfl
  | .bool _, .char _
  | .bool _, .map _
  | .bool _, .number _
  | .bool _, .option _
  | .bool _, .string _
  | .bool _, .seq _
  | .bool _, .unit
  | .char _, .bool _
  | .char _, .map _
  | .char _, .number _
  | .char _, .option _
  | .char _, .string _
  | .char _, .seq _
  | .char _, .unit
  | .map _, .bool _
  | .map _, .char _
  | .map _, .number _
  | .map _, .option _
  | .map _, .string _
  | .map _, .seq _
  | .map _, .unit
  | .number _, .bool _
  | .number _, .char _
  | .number _, .map _
  | .number _, .option _
  | .number _, .string _
  | .number _, .seq _
  | .number _, .unit
  | .option _, .bool _
  | .option _, .char _
  | .option _, .map _
  | .option _, .number _
  | .option _, .string _
  | .option _, .seq _
  | .option _, .unit
  | .string _, .bool _
  | .string _, .char _
  | .string _, .map _
  | .string _, .number _
  | .string _, .option _
  | .string _, .seq _
  | .string _, .unit
  | .seq _, .bool _
  | .seq _, .char _
  | .seq _, .map _
  | .seq _, .number _
  | .seq _, .option _
  | .seq _, .string _
  | .seq _, .unit
  | .unit, .bool _
  | .unit, .char _
  | .unit, .map _
  | .unit, .number _
  | .unit, .option _
  | .unit, .string _
  | .unit, .seq _ => fun h => nomatch h

theorem cmpOpt_eq : (a b : Option Value) → cmpOpt a b = .eq → a = b
  | .none, .none => fun _ => rfl
  | .none, .some _ => fun h => nomatch h
  | .some _, .none => fun h => nomatch h
  | .some a, .some b => fun h => congrArg some (Value.cmp_eq a b h)

theorem cmpValues_eq : (xs ys : List Value) → cmpValues xs ys = .eq → xs = ys
  | [], [] => fun _ => rfl
  | [], _ :: _ => fun h => nomatch h
  | _ :: _, [] => fun h => nomatch h
  | a :: as, b :: bs => fun h => by
    simp only [cmpValues] at h
    cases hc : Value.cmp a b <;> rw [hc] at h
    · exact absurd h (by simp)
    · rw [Value.cmp_eq a b hc, cmpValues_eq as bs h]
    · exact absurd h (by simp)

theorem cmpEntries_eq :
    (xs ys : List (Value × Value)) → cmpEntries xs ys = .eq → xs = ys
  | [], [] => fun _ => rfl
  | [], _ :: _ => fun h => nomatch h
  | _ :: _, [] => fun h => nomatch h
  | (k, v) :: as, (k2, v2) :: bs => fun h => by
    simp only [cmpEntries] at h
    cases hk : Value.cmp k k2 <;> rw [hk] at h
    · exact absurd h (by simp)
    · cases hv : Value.cmp v v2 <;> rw [hv] at h
      · exact absurd h (by simp)
      · rw [Value.cmp_eq k k2 hk, Value.cmp_eq v v2 hv, cmpEntries_eq as bs h]
      · exact absurd h (by simp)
    · exact absurd h (by simp)

end

mutual

theorem Value.cmp_refl : (x : Value) → Value.cmp x x = .eq
  | .bool a => by
    simp only [Value.cmp]
    exact cmpBool_refl a
  | .char a => by
    simp only [Value.cmp]
    exact cmpChar_refl a
  | .map a => by
    simp only [Value.cmp]
    exact cmpEntries_refl a
  | .number a => by
    simp only [Value.cmp]
    exact cmpRat_refl a.val
  | .option a => by
    simp only [Value.cmp]
    exact cmpOpt_refl a
  | .string a => by
    simp only [Value.cmp]
    exact cmpChars_refl a
  | .seq a => by
    simp only [Value.cmp]
    exact cmpValues_refl a
  | .unit => rfl

theorem cmpOpt_refl : (a : Option Value) → cmpOpt a a = .eq
  | .none => rfl
  | .some a => by
    simp only [cmpOpt]
    exact Value.cmp_refl a

theorem cmpValues_refl : (xs : List Value) → cmpValues xs xs = .eq
  | [] => rfl
  | a :: as => by
    simp only [cmpValues]
    rw [Value.cmp_refl a, cmpValues_refl as]

theorem cmpEntries_refl : (xs : List (Value × Value)) → cmpEntries xs xs = .eq
  | [] => rfl
  | (k, v) :: as => by
    simp only [cmpEntries]
    rw [Value.cmp_refl k, Value.cmp_refl v, cmpEntries_refl as]

end

/-- `Ord`-equality on `Value` coincides with equality. -/
theorem Value.cmp_eq_iff (x y : Value) : Value.cmp x y = .eq ↔ x = y :=
  ⟨Value.cmp_eq x y, fun h => h ▸ Value.cmp_refl x⟩


theorem cmpNat_lt_iff {a b : Nat} : cmpNat a b = .lt ↔ a < b := by
  unfold cmpNat
  split
  next h => simp [h]
  next h =>
    split <;> simp <;> omega

theorem cmpNat_trans {a b c : Nat} (h1 : cmpNat a b = .lt) (h2 : cmpNat b c = .lt) :
    cmpNat a c = .lt :=
  cmpNat_lt_iff.mpr (lt_trans (cmpNat_lt_iff.mp h1) (cmpNat_lt_iff.mp h2))

theorem cmpRat_lt_iff {a b : Rat} : cmpRat a b = .lt ↔ a < b := by
  unfold cmpRat
  split
  next h => simp [h]
  next h =>
    split <;> simp <;> exact le_of_not_lt h

theorem cmpRat_trans {a b c : Rat} (h1 : cmpRat a b = .lt) (h2 : cmpRat b c = .lt) :
    cmpRat a c = .lt :=
  cmpRat_lt_iff.mpr (lt_trans (cmpRat_lt_iff.mp h1) (cmpRat_lt_iff.mp h2))

theorem cmpBool_trans {a b c : Bool} (h1 : cmpBool a b = .lt) (h2 : cmpBool b c = .lt) :
    cmpBool a c = .lt := by
  cases a <;> cases b <;> cases c <;>
    first | rfl | exact absurd h1 (by decide) | exact absurd h2 (by decide)

theorem cmpChar_trans {a b c : Char} (h1 : cmpChar a b = .lt) (h2 : cmpChar b c = .lt) :
    cmpChar a c = .lt :=
  cmpNat_trans h1 h2

theorem cmpChars_trans :
    (xs ys zs : List Char) → cmpChars xs ys = .lt → cmpChars ys zs = .lt →
      cmpChars xs zs = .lt
  | [], [], _ => fun h1 _ => nomatch h1
  | [], _ :: _, [] => fun _ h2 => nomatch h2
  | [], _ :: _, _ :: _ => fun _ _ => rfl
  | _ :: _, [], _ => fun h1 _ => nomatch h1
  | _ :: _, _ :: _, [] => fun _ h2 => nomatch h2
  | a :: as, b :: bs, c :: cs => fun h1 h2 => by
    simp only [cmpChars] at h1 h2 ⊢
    cases hab : cmpChar a b <;> rw [hab] at h1
    case gt => exact absurd h1 (by simp)
    case lt =>
      cases hbc : cmpChar b c <;> rw [hbc] at h2
      case gt => exact absurd h2 (by simp)
      case lt => simp only [cmpChar_trans hab hbc]
      case eq =>
        have e := cmpChar_eq hbc
        simp only [← e, hab]
    case eq =>
      have e := cmpChar_eq hab
      rw [e]
      cases hbc : cmpChar b c
      case lt => rfl
      case gt =>
        rw [hbc] at h2
        exact absurd h2 (by simp)
      case eq =>
        rw [hbc] at h2
        exact cmpChars_trans as bs cs h1 h2

mutual

theorem Value.cmp_trans :
    (x y z : Value) → Value.cmp x y = .lt → Value.cmp y z = .lt → Value.cmp x z = .lt
  | .bool a, y, z => fun h1 h2 => by
    cases y <;> cases z <;>
      first
        | exact h2
        | exact Ordering.noConfusion h1
        | exact Ordering.noConfusion h2
        | rfl
        | exact cmpBool_trans h1 h2
  | .char a, y, z => fun h1 h2 => by
    cases y <;> cases z <;>
      first
        | exact h2
        | exact Ordering.noConfusion h1
        | exact Ordering.noConfusion h2
        | rfl
        | exact cmpChar_trans h1 h2
  | .map a, y, z => fun h1 h2 => by
    cases y with
    | map b =>
      cases z with
      | map c => exact cmpEntries_trans a b c h1 h2
      | _ => first | exact h2 | exact Ordering.noConfusion h2
    | _ =>
      cases z <;>
        first
          | exact h2
          | exact Ordering.noConfusion h1
          | exact Ordering.noConfusion h2
          | rfl
  | .number a, y, z => fun h1 h2 => by
    cases y with
    | number b =>
      cases z with
      | number c => exact cmpRat_trans h1 h2
      | _ => first | exact h2 | exact Ordering.noConfusion h2
    | _ =>
      cases z <;>
        first
          | exact h2
          | exact Ordering.noConfusion h1
          | exact Ordering.noConfusion h2
          | rfl
  | .option a, y, z => fun h1 h2 => by
    cases y with
    | option b =>
      cases z with
      | option c => exact cmpOpt_trans a b c h1 h2
      | _ => first | exact h2 | exact Ordering.noConfusion h2
    | _ =>
      cases z <;>
        first
          | exact h2
          | exact Ordering.noConfusion h1
          | exact Ordering.noConfusion h2
          | rfl
  | .string a, y, z => fun h1 h2 => by
    cases y with
    | string b =>
      cases z with
      | string c => exact cmpChars_trans a b c h1 h2
      | _ => first | exact h2 | exact Ordering.noConfusion h2
    | _ =>
      cases z <;>
        first
          | exact h2
          | exact Ordering.noConfusion h1
          | exact Ordering.noConfusion h2
          | rfl
  | .seq a, y, z => fun h1 h2 => by
    cases y with
    | seq b =>
      cases z with
      | seq c => exact cmpValues_trans a b c h1 h2
      | _ => first | exact h2 | exact Ordering.noConfusion h2
    | _ =>
      cases z <;>
        first
          | exact h2
          | exact Ordering.noConfusion h1
          | exact Ordering.noConfusion h2
          | rfl
  | .unit, y, z => fun h1 h2 => by
    cases y <;> cases z <;>
      first
        | exact h2
        | exact Ordering.noConfusion h1
        | exact Ordering.noConfusion h2
        | rfl

theorem cmpOpt_trans :
    (a b c : Option Value) → cmpOpt a b = .lt → cmpOpt b c = .lt → cmpOpt a c = .lt
  | .none, .none, _ => fun h1 _ => nomatch h1
  | .none, .some _, .none => fun _ h2 => nomatch h2
  | .none, .some _, .some _ => fun _ _ => rfl
  | .some _, .none, _ => fun h1 _ => nomatch h1
  | .some _, .some _, .none => fun _ h2 => nomatch h2
  | .some x, .some y, .some z => fun h1 h2 => Value.cmp_trans x y z h1 h2

theorem cmpValues_trans :
    (xs ys zs : List Value) → cmpValues xs ys = .lt → cmpValues ys zs = .lt →
      cmpValues xs zs = .lt
  | [], [], _ => fun h1 _ => nomatch h1
  | [], _ :: _, [] => fun _ h2 => nomatch h2
  | [], _ :: _, _ :: _ => fun _ _ => rfl
  | _ :: _, [], _ => fun h1 _ => nomatch h1
  | _ :: _, _ :: _, [] => fun _ h2 => nomatch h2
  | a :: as, b :: bs, c :: cs => fun h1 h2 => by
    simp only [cmpValues] at h1 h2 ⊢
    cases hab : Value.cmp a b <;> rw [hab] at h1
    case gt => exact absurd h1 (by simp)
    case lt =>
      cases hbc : Value.cmp b c <;> rw [hbc] at h2
      case gt => exact absurd h2 (by simp)
      case lt => simp only [Value.cmp_trans a b c hab hbc]
      case eq =>
        have e := Value.cmp_eq b c hbc
        simp only [← e, hab]
    case eq =>
      have e := Value.cmp_eq a b hab
      rw [e]
      cases hbc : Value.cmp b c
      case lt => rfl
      case gt =>
        rw [hbc] at h2
        exact absurd h2 (by simp)
      case eq =>
        rw [hbc] at h2
        exact cmpValues_trans as bs cs h1 h2

theorem cmpEntries_trans :
    (xs ys zs : List (Value × Value)) → cmpEntries xs ys = .lt → cmpEntries ys zs = .lt →
      cmpEntries xs zs = .lt
  | [], [], _ => fun h1 _ => nomatch h1
  | [], _ :: _, [] => fun _ h2 => nomatch h2
  | [], _ :: _, _ :: _ => fun _ _ => rfl
  | _ :: _, [], _ => fun h1 _ => nomatch h1
  | _ :: _, _ :: _, [] => fun _ h2 => nomatch h2
  | (k, v) :: as, (k2, v2) :: bs, (k3, v3) :: cs => fun h1 h2 => by
    simp only [cmpEntries] at h1 h2 ⊢
    cases hab : Value.cmp k k2 <;> rw [hab] at h1
    case gt => exact absurd h1 (by simp)
    case lt =>
      cases hbc : Value.cmp k2 k3 <;> rw [hbc] at h2
      case gt => exact absurd h2 (by simp)
      case lt => simp only [Value.cmp_trans k k2 k3 hab hbc]
      case eq =>
        have e := Value.cmp_eq k2 k3 hbc
        simp only [← e, hab]
    case eq =>
      have e := Value.cmp_eq k k2 hab
      rw [e]
      cases hbc : Value.cmp k2 k3
      case lt => rfl
      case gt =>
        rw [hbc] at h2
        exact absurd h2 (by simp)
      case eq =>
        rw [hbc] at h2
        cases hv : Value.cmp v v2 <;> rw [hv] at h1
        case gt => exact absurd h1 (by simp)
        case lt =>
          cases hvc : Value.cmp v2 v3 <;> rw [hvc] at h2
          case gt => exact absurd h2 (by simp)
          case lt => simp only [Value.cmp_trans v v2 v3 hv hvc]
          case eq =>
            have e2 := Value.cmp_eq v2 v3 hvc
            simp only [← e2, hv]
        case eq =>
          have e2 := Value.cmp_eq v v2 hv
          rw [e2]
          cases hvc : Value.cmp v2 v3
          case lt => rfl
          case gt =>
            rw [hvc] at h2
            exact absurd h2 (by simp)
          case eq =>
            rw [hvc] at h2
            exact cmpEntries_trans as bs cs h1 h2

end

/-- Flip of `Value.cmp_swap` in the form used below. -/
theorem Value.cmp_gt_iff_lt (x y : Value) : Value.cmp x y = .gt ↔ Value.cmp y x = .lt := by
  rw [Value.cmp_swap y x]
  cases Value.cmp y x <;> simp [Ordering.swap]

/-! ## C4: map construction in the dynamic value model -/

theorem insertSorted_comm (k1 v1 k2 v2 : Value) (hne : Value.cmp k1 k2 ≠ .eq) :
    ∀ m : List (Value × Value),
      insertSorted k1 v1 (insertSorted k2 v2 m) =
        insertSorted k2 v2 (insertSorted k1 v1 m) := by
  intro m
  induction m with
  | nil =>
    cases h12 : Value.cmp k1 k2
    case eq => exact absurd h12 hne
    case lt =>
      have h21 : Value.cmp k2 k1 = .gt := by
        rw [Value.cmp_swap k1 k2, h12]
        rfl
      simp [insertSorted, h12, h21]
    case gt =>
      have h21 : Value.cmp k2 k1 = .lt := by
        rw [Value.cmp_swap k1 k2, h12]
        rfl
      simp [insertSorted, h12, h21]
  | cons hd t ih =>
    obtain ⟨k3, v3⟩ := hd
    cases c13 : Value.cmp k1 k3 <;> cases c23 : Value.cmp k2 k3
    case lt.lt =>
      cases h12 : Value.cmp k1 k2
      case eq => exact absurd h12 hne
      case lt =>
        have h21 : Value.cmp k2 k1 = .gt := by
          rw [Value.cmp_swap k1 k2, h12]
          rfl
        simp [insertSorted, c13, c23, h12, h21]
      case gt =>
        have h21 : Value.cmp k2 k1 = .lt := by
          rw [Value.cmp_swap k1 k2, h12]
          rfl
        simp [insertSorted, c13, c23, h12, h21]
    case lt.eq =>
      have e := Value.cmp_eq k2 k3 c23
      subst e
      have h12 : Value.cmp k1 k2 = .lt := c13
      have h21 : Value.cmp k2 k1 = .gt := by
        rw [Value.cmp_swap k1 k2, h12]
        rfl
      simp [insertSorted, c13, h12, h21, Value.cmp_refl]
    case lt.gt =>
      have h32 : Value.cmp k3 k2 = .lt := by
        rw [Value.cmp_swap k2 k3, c23]
        rfl
      have h12 : Value.cmp k1 k2 = .lt := Value.cmp_trans k1 k3 k2 c13 h32
      have h21 : Value.cmp k2 k1 = .gt := by
        rw [Value.cmp_swap k1 k2, h12]
        rfl
      simp [insertSorted, c13, c23, h12, h21]
    case eq.lt =>
      have e := Value.cmp_eq k1 k3 c13
      subst e
      have h21 : Value.cmp k2 k1 = .lt := c23
      have h12 : Value.cmp k1 k2 = .gt := by
        rw [Value.cmp_swap k2 k1, h21]
        rfl
      simp [insertSorted, c23, h12, h21, Value.cmp_refl]
    case eq.eq =>
      have e1 := Value.cmp_eq k1 k3 c13
      have e2 := Value.cmp_eq k2 k3 c23
      exact absurd (e1.trans e2.symm ▸ Value.cmp_refl k1) hne
    case eq.gt =>
      have e := Value.cmp_eq k1 k3 c13
      subst e
      have h21 : Value.cmp k2 k1 = .gt := c23
      have h12 : Value.cmp k1 k2 = .lt := by
        rw [Value.cmp_swap k2 k1, h21]
        rfl
      simp [insertSorted, c23, h12, h21, Value.cmp_refl]
    case gt.lt =>
      have h31 : Value.cmp k3 k1 = .lt := by
        rw [Value.cmp_swap k1 k3, c13]
        rfl
      have h21 : Value.cmp k2 k1 = .lt := Value.cmp_trans k2 k3 k1 c23 h31
      have h12 : Value.cmp k1 k2 = .gt := by
        rw [Value.cmp_swap k2 k1, h21]
        rfl
      simp [insertSorted, c13, c23, h12, h21]
    case gt.eq =>
      have e := Value.cmp_eq k2 k3 c23
      subst e
      have h12 : Value.cmp k1 k2 = .gt := c13
      have h21 : Value.cmp k2 k1 = .lt := by
        rw [Value.cmp_swap k1 k2, h12]
        rfl
      simp [insertSorted, c13, h12, h21, Value.cmp_refl]
    case gt.gt =>
      simp [insertSorted, c13, c23, ih]

theorem foldIns_perm {l1 l2 : List (Value × Value)} (hp : l1.Perm l2) :
    ∀ acc : List (Value × Value), (l1.map Prod.fst).Nodup →
      l1.foldl (fun res e => insertSorted e.1 e.2 res) acc =
        l2.foldl (fun res e => insertSorted e.1 e.2 res) acc := by
  induction hp with
  | nil =>
    intro acc _
    rfl
  | cons x p ih =>
    intro acc hnd
    simp only [List.map_cons, List.nodup_cons] at hnd
    simp only [List.foldl_cons]
    exact ih _ hnd.2
  | swap x y l =>
    intro acc hnd
    simp only [List.map_cons, List.nodup_cons, List.mem_cons] at hnd
    have hne : Value.cmp x.1 y.1 ≠ .eq := by
      intro hc
      exact hnd.1 (Or.inl (Value.cmp_eq x.1 y.1 hc).symm)
    simp only [List.foldl_cons]
    rw [insertSorted_comm x.1 x.2 y.1 y.2 hne acc]
  | trans p1 p2 ih1 ih2 =>
    intro acc hnd
    rw [ih1 acc hnd, ih2 acc ((p1.map Prod.fst).nodup_iff.mp hnd)]

theorem mapGet_insertSorted (k v kq : Value) :
    ∀ m : List (Value × Value),
      mapGet kq (insertSorted k v m) =
        if Value.cmp kq k = .eq then some v else mapGet kq m := by
  intro m
  induction m with
  | nil =>
    simp only [insertSorted, mapGet]
    cases hq : Value.cmp kq k <;> simp [hq]
  | cons hd t ih =>
    obtain ⟨k2, v2⟩ := hd
    cases h : Value.cmp k k2
    case lt =>
      simp only [insertSorted, h, mapGet]
      cases hq : Value.cmp kq k <;> simp [hq, mapGet]
    case eq =>
      have e := Value.cmp_eq k k2 h
      subst e
      simp only [insertSorted, h, mapGet]
      cases hq : Value.cmp kq k <;> simp [hq, mapGet]
    case gt =>
      have hs : Value.cmp k2 k = .lt := by
        rw [Value.cmp_swap k k2, h]
        rfl
      simp only [insertSorted, h, mapGet]
      cases hq : Value.cmp kq k2
      case eq =>
        have e := Value.cmp_eq kq k2 hq
        subst e
        have : Value.cmp kq k ≠ .eq := by
          rw [hs]
          simp
        simp [mapGet, hq, this]
      case lt =>
        simp [mapGet, hq, ih]
      case gt =>
        simp [mapGet, hq, ih]

theorem buildMap_append (l : List (Value × Value)) (e : Value × Value) :
    buildMap (l ++ [e]) = insertSorted e.1 e.2 (buildMap l) := by
  simp [buildMap, List.foldl_append]

theorem lastAssoc_append (l : List (Value × Value)) (e : Value × Value) (k : Value) :
    lastAssoc (l ++ [e]) k =
      if Value.cmp e.1 k = .eq then some e.2 else lastAssoc l k := by
  simp [lastAssoc, List.foldl_append]

theorem buildMap_lastAssoc :
    ∀ (l : List (Value × Value)) (k : Value), mapGet k (buildMap l) = lastAssoc l k := by
  intro l
  induction l using List.reverseRecOn with
  | nil =>
    intro k
    rfl
  | append_singleton l e ih =>
    intro k
    rw [buildMap_append, mapGet_insertSorted, lastAssoc_append]
    by_cases he : Value.cmp k e.1 = .eq
    · have he2 : Value.cmp e.1 k = .eq := by
        rw [Value.cmp_swap k e.1, he]
        rfl
      simp [he, he2]
    · have he2 : Value.cmp e.1 k ≠ .eq := by
        intro hc
        apply he
        rw [Value.cmp_swap e.1 k, hc]
        rfl
      simp [he, he2, ih]

theorem insertSorted_head_cases (k v : Value) :
    ∀ m : List (Value × Value),
      (insertSorted k v m).head? = some (k, v) ∨ (insertSorted k v m).head? = m.head? := by
  intro m
  cases m with
  | nil => exact Or.inl rfl
  | cons hd t =>
    obtain ⟨k2, v2⟩ := hd
    cases h : Value.cmp k k2 <;> simp [insertSorted, h]

theorem chain'_insertSorted (k v : Value) :
    ∀ m : List (Value × Value),
      entriesSortedByKey m → entriesSortedByKey (insertSorted k v m) := by
  intro m
  induction m with
  | nil =>
    intro _
    simp [insertSorted, entriesSortedByKey]
  | cons hd t ih =>
    obtain ⟨k2, v2⟩ := hd
    intro hm
    rw [entriesSortedByKey, List.chain'_cons'] at hm
    cases h : Value.cmp k k2
    case lt =>
      rw [entriesSortedByKey, insertSorted, h, List.chain'_cons']
      refine ⟨?_, List.chain'_cons'.mpr hm⟩
      intro b hb
      simp at hb
      rw [← hb]
      exact h
    case eq =>
      have e := Value.cmp_eq k k2 h
      subst e
      rw [entriesSortedByKey, insertSorted, h, List.chain'_cons']
      exact ⟨hm.1, hm.2⟩
    case gt =>
      have hs : Value.cmp k2 k = .lt := by
        rw [Value.cmp_swap k k2, h]
        rfl
      rw [entriesSortedByKey, insertSorted, h, List.chain'_cons']
      constructor
      · intro b hb
        rcases insertSorted_head_cases k v t with hh | hh
        · rw [hh] at hb
          simp at hb
          rw [← hb]
          exact hs
        · rw [hh] at hb
          exact hm.1 b hb
      · exact ih hm.2

theorem foldIns_sorted :
    ∀ (l : List (Value × Value)) (acc : List (Value × Value)),
      entriesSortedByKey acc →
        entriesSortedByKey (l.foldl (fun res e => insertSorted e.1 e.2 res) acc)
  | [], _ => fun h => h
  | e :: t, acc => fun h =>
    foldIns_sorted t (insertSorted e.1 e.2 acc) (chain'_insertSorted e.1 e.2 acc h)

/-- **C4.** `visit_map` builds a map whose stored content is independent of
the input order of entries with pairwise distinct keys (every permutation
yields the same map); its stored entry sequence is always strictly sorted
by the `Value` order on keys; and on equal (`Ord`-equal) keys the later
entry of the stream wins: the lookup of any key in the built map is the
last value associated to it by the stream. -/
theorem visit_map_build_contract :
    (∀ l1 l2 : List (Value × Value), l1.Perm l2 → (l1.map Prod.fst).Nodup →
        visit_map l1 = visit_map l2) ∧
      (∀ (l : List (Value × Value)) (k : Value), mapGet k (buildMap l) = lastAssoc l k) ∧
      ∀ l : List (Value × Value), entriesSortedByKey (buildMap l) := by
  refine ⟨?_, buildMap_lastAssoc, ?_⟩
  · intro l1 l2 hp hnd
    unfold visit_map buildMap
    rw [foldIns_perm hp [] hnd]
  · intro l
    exact foldIns_sorted l [] (by simp [entriesSortedByKey])

/-- Witness for C4: the spec's example map keyed by boolean pairs, fed in
both entry orders, builds the same map. -/
theorem visit_map_build_contract_witness :
    visit_map [(Value.seq [.bool true, .bool false], Value.number ⟨4⟩),
        (Value.seq [.bool false, .bool false], Value.number ⟨123⟩)] =
      visit_map [(Value.seq [.bool false, .bool false], Value.number ⟨123⟩),
        (Value.seq [.bool true, .bool false], Value.number ⟨4⟩)] :=
  visit_map_build_contract.1 _ _ (List.Perm.swap _ _ _) (by simp)

/-! ## C7: trailing-comma tolerance of the comma-separated iterators -/

theorem renderTail_head (items : List (List Char)) (trailing : Bool) (t : Char) :
    (renderTail items trailing t).head? = some ',' ∨
      (renderTail items trailing t).head? = some t := by
  cases items with
  | nil =>
    cases trailing with
    | true => exact Or.inl rfl
    | false => exact Or.inr rfl
  | cons e es => exact Or.inl rfl

theorem renderTail_length (items : List (List Char)) (trailing : Bool) (t : Char) :
    items.length + 1 ≤ (renderTail items trailing t).length := by
  induction items with
  | nil =>
    cases trailing <;> simp [renderTail]
  | cons e es ih =>
    simp only [renderTail, List.foldr_cons, List.length_cons] at ih ⊢
    simp
    omega

theorem skipWs_append_of_head {e : List Char} (he : e ≠ [])
    (hh : ∀ c, e.head? = some c → isWsChar c = false) (x : List Char) :
    skipWs (e ++ x) = e ++ x := by
  cases e with
  | nil => exact absurd rfl he
  | cons c cs => exact skipWs_cons_not_ws (hh c rfl) _

theorem head_append_ne {e : List Char} {t : Char} (he : e ≠ [])
    (hh : ∀ c, e.head? = some c → c ≠ t) (x : List Char) :
    ((e ++ x).head? = some t) = False := by
  cases e with
  | nil => exact absurd rfl he
  | cons c cs =>
    simp only [List.cons_append, List.head?_cons, Option.some.injEq]
    exact eq_false (hh c rfl)

theorem pomComma_cons (s : List Char) (h : skipWs s = s) : pomComma (',' :: s) = some s := by
  unfold pomComma
  rw [skipWs_cons_not_ws (by decide)]
  show some (skipWs s) = some s
  rw [h]

theorem pomColon_cons (s : List Char) (h : skipWs s = s) : pomColon (':' :: s) = some s := by
  unfold pomColon
  rw [skipWs_cons_not_ws (by decide)]
  show some (skipWs s) = some s
  rw [h]

theorem bytesComma_id {c : Char} (hws : isWsChar c = false) (hc : c ≠ ',') (s : List Char) :
    bytesComma (c :: s) = c :: s := by
  unfold bytesComma
  rw [skipWs_cons_not_ws hws]
  cases s with
  | nil => cases c <;> simp_all [bytesComma]
  | cons d t => cases c <;> simp_all [bytesComma]

theorem seqElems_renderTail {α : Type} (p : P α) (t : Char)
    (htws : isWsChar t = false) (htc : t ≠ ',') :
    ∀ (items : List (List Char × α)) (trailing : Bool) (fuel : Nat),
      items.length + 1 ≤ fuel →
      (∀ ev ∈ items, ElemOk p t ev.1 ev.2) →
      seqElems p t fuel false (renderTail (items.map Prod.fst) trailing t) =
        .ok (items.map Prod.snd, [t]) := by
  intro items
  induction items with
  | nil =>
    intro trailing fuel hfuel _
    match fuel, hfuel with
    | fuel + 1, _ =>
      cases trailing with
      | false =>
        simp [renderTail, seqElems]
      | true =>
        have h2 : skipWs [t] = [t] := skipWs_cons_not_ws htws _
        have hcomma := pomComma_cons [t] h2
        simp [renderTail, seqElems, hcomma, Ne.symm htc]
  | cons ev rest ih =>
    intro trailing fuel hfuel hall
    obtain ⟨e, v⟩ := ev
    have h0 : ElemOk p t e v := hall (e, v) (by simp)
    obtain ⟨hne, hhead, hparse⟩ := h0
    have hrest : ∀ ev ∈ rest, ElemOk p t ev.1 ev.2 := fun ev hev => hall ev (by simp [hev])
    match fuel, hfuel with
    | fuel + 1, hfuel =>
      have input_eq :
          renderTail (((e, v) :: rest).map Prod.fst) trailing t =
            ',' :: (e ++ renderTail (rest.map Prod.fst) trailing t) := by
        simp [renderTail]
      rw [input_eq]
      have hskip : skipWs (e ++ renderTail (rest.map Prod.fst) trailing t) =
          e ++ renderTail (rest.map Prod.fst) trailing t :=
        skipWs_append_of_head hne (fun c hc => (hhead c hc).1) _
      have hcomma : pomComma (',' :: (e ++ renderTail (rest.map Prod.fst) trailing t)) =
          some (e ++ renderTail (rest.map Prod.fst) trailing t) :=
        pomComma_cons _ hskip
      have hparse0 :
          p (e ++ renderTail (rest.map Prod.fst) trailing t) =
            .ok (v, renderTail (rest.map Prod.fst) trailing t) :=
        hparse _ (renderTail_head _ _ _)
      have hrec := ih trailing fuel (by simpa using Nat.lt_succ_iff.mp hfuel) hrest
      have hhd := head_append_ne hne (fun c hc => (hhead c hc).2.1)
        (renderTail (rest.map Prod.fst) trailing t)
      simp [seqElems, Ne.symm htc, hcomma, hhd, pomSpace, hskip, hparse0, hrec]
      refine ⟨?_, fun hemp => absurd hemp hne⟩
      cases e with
      | nil => exact absurd rfl hne
      | cons c cs =>
        simp only [List.head?_cons, Option.some.injEq]
        exact (hhead c rfl).2.1

theorem seqElems_first {α : Type} (p : P α) (t : Char)
    (htws : isWsChar t = false) (htc : t ≠ ',')
    (e0 : List Char) (v0 : α) (rest : List (List Char × α)) (trailing : Bool)
    (h0 : ElemOk p t e0 v0) (hall : ∀ ev ∈ rest, ElemOk p t ev.1 ev.2) :
    ∀ fuel : Nat, rest.length + 2 ≤ fuel →
      seqElems p t fuel true (e0 ++ renderTail (rest.map Prod.fst) trailing t) =
        .ok (v0 :: rest.map Prod.snd, [t]) := by
  obtain ⟨hne, hhead, hparse⟩ := h0
  intro fuel hfuel
  match fuel, hfuel with
  | fuel + 1, hfuel =>
    have hskip : skipWs (e0 ++ renderTail (rest.map Prod.fst) trailing t) =
        e0 ++ renderTail (rest.map Prod.fst) trailing t :=
      skipWs_append_of_head hne (fun c hc => (hhead c hc).1) _
    have hparse0 :
        p (e0 ++ renderTail (rest.map Prod.fst) trailing t) =
          .ok (v0, renderTail (rest.map Prod.fst) trailing t) :=
      hparse _ (renderTail_head _ _ _)
    have hrec := seqElems_renderTail p t htws htc rest trailing fuel (by omega) hall
    have hhd := head_append_ne hne (fun c hc => (hhead c hc).2.1)
      (renderTail (rest.map Prod.fst) trailing t)
    simp [seqElems, hhd, pomSpace, hskip, hparse0, hrec]
    refine ⟨?_, fun hemp => absurd hemp hne⟩
    cases e0 with
    | nil => exact absurd rfl hne
    | cons c cs =>
      simp only [List.head?_cons, Option.some.injEq]
      exact (hhead c rfl).2.1

/-- Decoding a rendered sequence text (with or without trailing comma)
through `from_str` yields exactly the element values. -/
theorem deserialize_seq_render {α : Type} (p : P α) (e0 : List Char) (v0 : α)
    (rest : List (List Char × α)) (trailing : Bool)
    (h0 : ElemOk p ']' e0 v0) (hall : ∀ ev ∈ rest, ElemOk p ']' ev.1 ev.2) :
    from_str (deserialize_seq p) (renderElems '[' e0 (rest.map Prod.fst) trailing ']') =
      .ok (v0 :: rest.map Prod.snd) := by
  have hlen : rest.length + 2 ≤ (e0 ++ renderTail (rest.map Prod.fst) trailing ']').length + 1 := by
    have h1 := renderTail_length (rest.map Prod.fst) trailing ']'
    have h2 : 1 ≤ e0.length := by
      cases e0 with
      | nil => exact absurd rfl h0.1
      | cons c cs => simp
    simp only [List.length_append, List.length_map] at h1 ⊢
    omega
  have hfirst := seqElems_first p ']' (by decide) (by decide) e0 v0 rest trailing h0 hall
    ((e0 ++ renderTail (rest.map Prod.fst) trailing ']').length + 1) hlen
  have hbc : bytesComma [']'] = [']'] := bytesComma_id (by decide) (by decide) []
  simp only [List.length_append] at hfirst
  unfold from_str deserialize_seq renderElems
  simp only [litMatch, if_pos rfl]
  simp [hfirst, hbc, litMatch, endCheck, skipWs]

theorem bytesComma_comma (s : List Char) (h : skipWs s = s) : bytesComma (',' :: s) = s := by
  unfold bytesComma
  rw [skipWs_cons_not_ws (by decide)]
  show skipWs s = s
  exact h

theorem seqElemsN_renderTail {α : Type} (p : P α) (t : Char) (htc : t ≠ ',') :
    ∀ (items : List (List Char × α)) (trailing : Bool),
      (∀ ev ∈ items, ElemOk p t ev.1 ev.2) →
      seqElemsN p t items.length false (renderTail (items.map Prod.fst) trailing t) =
        .ok (items.map Prod.snd, (if trailing then [','] else []) ++ [t]) := by
  intro items
  induction items with
  | nil =>
    intro trailing _
    simp [seqElemsN, renderTail]
  | cons ev rest ih =>
    intro trailing hall
    obtain ⟨e, v⟩ := ev
    obtain ⟨hne, hhead, hparse⟩ := hall (e, v) (by simp)
    have hrest : ∀ ev ∈ rest, ElemOk p t ev.1 ev.2 := fun ev hev => hall ev (by simp [hev])
    have hskip : skipWs (e ++ renderTail (rest.map Prod.fst) trailing t) =
        e ++ renderTail (rest.map Prod.fst) trailing t :=
      skipWs_append_of_head hne (fun c hc => (hhead c hc).1) _
    have hcomma := pomComma_cons _ hskip
    have hparse0 :
        p (e ++ renderTail (rest.map Prod.fst) trailing t) =
          .ok (v, renderTail (rest.map Prod.fst) trailing t) :=
      hparse _ (renderTail_head _ _ _)
    have hrec := ih trailing hrest
    have hhd := head_append_ne hne (fun c hc => (hhead c hc).2.1)
      (renderTail (rest.map Prod.fst) trailing t)
    have input_eq :
        renderTail (((e, v) :: rest).map Prod.fst) trailing t =
          ',' :: (e ++ renderTail (rest.map Prod.fst) trailing t) := by
      simp [renderTail]
    show seqElemsN p t (rest.length + 1) false
        (renderTail (((e, v) :: rest).map Prod.fst) trailing t) = _
    rw [input_eq]
    simp [seqElemsN, Ne.symm htc, hcomma, hhd, pomSpace, hskip, hparse0, hrec]
    refine ⟨?_, fun hemp => absurd hemp hne⟩
    cases e with
    | nil => exact absurd rfl hne
    | cons c cs =>
      simp only [List.head?_cons, Option.some.injEq]
      exact (hhead c rfl).2.1

theorem seqElemsN_first {α : Type} (p : P α) (t : Char) (htc : t ≠ ',')
    (e0 : List Char) (v0 : α) (rest : List (List Char × α)) (trailing : Bool)
    (h0 : ElemOk p t e0 v0) (hall : ∀ ev ∈ rest, ElemOk p t ev.1 ev.2) :
    seqElemsN p t (rest.length + 1) true (e0 ++ renderTail (rest.map Prod.fst) trailing t) =
      .ok (v0 :: rest.map Prod.snd, (if trailing then [','] else []) ++ [t]) := by
  obtain ⟨hne, hhead, hparse⟩ := h0
  have hskip : skipWs (e0 ++ renderTail (rest.map Prod.fst) trailing t) =
      e0 ++ renderTail (rest.map Prod.fst) trailing t :=
    skipWs_append_of_head hne (fun c hc => (hhead c hc).1) _
  have hparse0 :
      p (e0 ++ renderTail (rest.map Prod.fst) trailing t) =
        .ok (v0, renderTail (rest.map Prod.fst) trailing t) :=
    hparse _ (renderTail_head _ _ _)
  have hrec := seqElemsN_renderTail p t htc rest trailing hall
  have hhd := head_append_ne hne (fun c hc => (hhead c hc).2.1)
    (renderTail (rest.map Prod.fst) trailing t)
  simp [seqElemsN, hhd, pomSpace, hskip, hparse0, hrec]
  refine ⟨?_, fun hemp => absurd hemp hne⟩
  cases e0 with
  | nil => exact absurd rfl hne
  | cons c cs =>
    simp only [List.head?_cons, Option.some.injEq]
    exact (hhead c rfl).2.1

/-- Decoding a rendered tuple text (with or without trailing comma) through
`from_str` with the matching arity yields exactly the element values. -/
theorem deserialize_tuple_render {α : Type} (p : P α) (e0 : List Char) (v0 : α)
    (rest : List (List Char × α)) (trailing : Bool)
    (h0 : ElemOk p ')' e0 v0) (hall : ∀ ev ∈ rest, ElemOk p ')' ev.1 ev.2) :
    from_str (deserialize_tuple (rest.length + 1) p)
        (renderElems '(' e0 (rest.map Prod.fst) trailing ')') =
      .ok (v0 :: rest.map Prod.snd) := by
  have hfirst := seqElemsN_first p ')' (by decide) e0 v0 rest trailing h0 hall
  have hbc : litMatch [')'] (bytesComma ((if trailing then [','] else []) ++ [')'])) =
      some [] := by
    cases trailing with
    | true =>
      have h2 : skipWs [')'] = [')'] := skipWs_cons_not_ws (by decide) _
      simp [bytesComma_comma [')'] h2, litMatch]
    | false =>
      simp [bytesComma_id (show isWsChar ')' = false by decide) (by decide) [], litMatch]
  unfold from_str deserialize_tuple renderElems
  simp only [litMatch, if_pos rfl]
  simp [hfirst, hbc, endCheck, skipWs]

theorem mapEntries_renderTail {κ α : Type} (kP : P κ) (vP : P α) (t : Char)
    (htws : isWsChar t = false) (htc : t ≠ ',') :
    ∀ (items : List ((List Char × κ) × (List Char × α))) (trailing : Bool) (fuel : Nat),
      items.length + 1 ≤ fuel →
      (∀ en ∈ items, KeyOk kP t en.1.1 en.1.2 ∧ ValOk vP t en.2.1 en.2.2) →
      mapEntries kP vP t fuel false
          (renderTail (items.map fun en => renderEntry en.1.1 en.2.1) trailing t) =
        .ok (items.map fun en => (en.1.2, en.2.2), [t]) := by
  intro items
  induction items with
  | nil =>
    intro trailing fuel hfuel _
    match fuel, hfuel with
    | fuel + 1, _ =>
      cases trailing with
      | false =>
        simp [renderTail, mapEntries]
      | true =>
        have h2 : skipWs [t] = [t] := skipWs_cons_not_ws htws _
        have hcomma := pomComma_cons [t] h2
        simp [renderTail, mapEntries, hcomma, Ne.symm htc]
  | cons en rest ih =>
    intro trailing fuel hfuel hall
    obtain ⟨⟨ke, k⟩, ⟨ve, v⟩⟩ := en
    obtain ⟨⟨hkne, hkhead, hkparse⟩, ⟨hvne, hvhead, hvparse⟩⟩ := hall ((ke, k), (ve, v)) (by simp)
    have hrest : ∀ en ∈ rest, KeyOk kP t en.1.1 en.1.2 ∧ ValOk vP t en.2.1 en.2.2 :=
      fun en hen => hall en (by simp [hen])
    match fuel, hfuel with
    | fuel + 1, hfuel =>
      set X := renderTail (rest.map fun en => renderEntry en.1.1 en.2.1) trailing t with hX
      have input_eq :
          renderTail ((((ke, k), (ve, v)) :: rest).map fun en => renderEntry en.1.1 en.2.1)
              trailing t =
            ',' :: (ke ++ ':' :: (ve ++ X)) := by
        simp [renderTail, renderEntry, hX]
      rw [input_eq]
      have hskipv : skipWs (ve ++ X) = ve ++ X :=
        skipWs_append_of_head hvne (fun c hc => hvhead c hc) _
      have hskip : skipWs (ke ++ ':' :: (ve ++ X)) = ke ++ ':' :: (ve ++ X) :=
        skipWs_append_of_head hkne (fun c hc => (hkhead c hc).1) _
      have hcomma := pomComma_cons _ hskip
      have hkparse0 : kP (ke ++ ':' :: (ve ++ X)) = .ok (k, ':' :: (ve ++ X)) :=
        hkparse _ rfl
      have hcolon := pomColon_cons _ hskipv
      have hvparse0 : vP (ve ++ X) = .ok (v, X) :=
        hvparse _ (renderTail_head _ _ _)
      have hrec := ih trailing fuel (by simpa using Nat.lt_succ_iff.mp hfuel) hrest
      have hhd := head_append_ne hkne (fun c hc => (hkhead c hc).2.1) (':' :: (ve ++ X))
      simp [mapEntries, Ne.symm htc, hcomma, hhd, pomSpace, hskip, hkparse0, hcolon,
        hvparse0, hrec]
      refine ⟨?_, fun hemp => absurd hemp hkne⟩
      cases ke with
      | nil => exact absurd rfl hkne
      | cons c cs =>
        simp only [List.head?_cons, Option.some.injEq]
        exact (hkhead c rfl).2.1

theorem mapEntries_first {κ α : Type} (kP : P κ) (vP : P α) (t : Char)
    (htws : isWsChar t = false) (htc : t ≠ ',')
    (ke0 : List Char) (k0 : κ) (ve0 : List Char) (w0 : α)
    (rest : List ((List Char × κ) × (List Char × α))) (trailing : Bool)
    (hk : KeyOk kP t ke0 k0) (hv : ValOk vP t ve0 w0)
    (hall : ∀ en ∈ rest, KeyOk kP t en.1.1 en.1.2 ∧ ValOk vP t en.2.1 en.2.2) :
    ∀ fuel : Nat, rest.length + 2 ≤ fuel →
      mapEntries kP vP t fuel true
          (renderEntry ke0 ve0 ++
            renderTail (rest.map fun en => renderEntry en.1.1 en.2.1) trailing t) =
        .ok ((k0, w0) :: rest.map fun en => (en.1.2, en.2.2), [t]) := by
  obtain ⟨hkne, hkhead, hkparse⟩ := hk
  obtain ⟨hvne, hvhead, hvparse⟩ := hv
  intro fuel hfuel
  match fuel, hfuel with
  | fuel + 1, hfuel =>
    set X := renderTail (rest.map fun en => renderEntry en.1.1 en.2.1) trailing t with hX
    have input_eq : renderEntry ke0 ve0 ++ X = ke0 ++ ':' :: (ve0 ++ X) := by
      simp [renderEntry]
    rw [input_eq]
    have hskipv : skipWs (ve0 ++ X) = ve0 ++ X :=
      skipWs_append_of_head hvne (fun c hc => hvhead c hc) _
    have hskip : skipWs (ke0 ++ ':' :: (ve0 ++ X)) = ke0 ++ ':' :: (ve0 ++ X) :=
      skipWs_append_of_head hkne (fun c hc => (hkhead c hc).1) _
    have hkparse0 : kP (ke0 ++ ':' :: (ve0 ++ X)) = .ok (k0, ':' :: (ve0 ++ X)) :=
      hkparse _ rfl
    have hcolon := pomColon_cons _ hskipv
    have hvparse0 : vP (ve0 ++ X) = .ok (w0, X) :=
      hvparse _ (renderTail_head _ _ _)
    have hrec := mapEntries_renderTail kP vP t htws htc rest trailing fuel (by omega) hall
    have hhd := head_append_ne hkne (fun c hc => (hkhead c hc).2.1) (':' :: (ve0 ++ X))
    simp [mapEntries, hhd, pomSpace, hskip, hkparse0, hcolon, hvparse0, hrec]
    refine ⟨?_, fun hemp => absurd hemp hkne⟩
    cases ke0 with
    | nil => exact absurd rfl hkne
    | cons c cs =>
      simp only [List.head?_cons, Option.some.injEq]
      exact (hkhead c rfl).2.1

/-- Decoding a rendered map text (with or without trailing comma) through
`from_str` yields exactly the rendered entries. -/
theorem deserialize_map_render {κ α : Type} (kP : P κ) (vP : P α)
    (ke0 : List Char) (k0 : κ) (ve0 : List Char) (w0 : α)
    (rest : List ((List Char × κ) × (List Char × α))) (trailing : Bool)
    (hk : KeyOk kP '}' ke0 k0) (hv : ValOk vP '}' ve0 w0)
    (hall : ∀ en ∈ rest, KeyOk kP '}' en.1.1 en.1.2 ∧ ValOk vP '}' en.2.1 en.2.2) :
    from_str (deserialize_map kP vP)
        (renderElems '{' (renderEntry ke0 ve0)
          (rest.map fun en => renderEntry en.1.1 en.2.1) trailing '}') =
      .ok ((k0, w0) :: rest.map fun en => (en.1.2, en.2.2)) := by
  have hlen : rest.length + 2 ≤
      (renderEntry ke0 ve0 ++
        renderTail (rest.map fun en => renderEntry en.1.1 en.2.1) trailing '}').length + 1 := by
    have h1 := renderTail_length (rest.map fun en => renderEntry en.1.1 en.2.1) trailing '}'
    have h2 : 1 ≤ (renderEntry ke0 ve0).length := by
      cases ke0 with
      | nil => exact absurd rfl hk.1
      | cons c cs => simp [renderEntry]
    simp only [List.length_append, List.length_map] at h1 ⊢
    omega
  have hfirst := mapEntries_first kP vP '}' (by decide) (by decide) ke0 k0 ve0 w0 rest trailing
    hk hv hall
    ((renderEntry ke0 ve0 ++
      renderTail (rest.map fun en => renderEntry en.1.1 en.2.1) trailing '}').length + 1) hlen
  have hbc : bytesComma ['}'] = ['}'] := bytesComma_id (by decide) (by decide) []
  simp only [List.length_append] at hfirst
  unfold from_str deserialize_map renderElems
  simp only [litMatch, if_pos rfl]
  simp [hfirst, hbc, litMatch, endCheck, skipWs]

/-- Decoding a rendered struct text (with or without trailing comma, with
the type-name prefix) through `from_str` yields exactly the rendered
field entries. -/
theorem deserialize_struct_render {α : Type} (name : List Char) (vP : P α)
    (ke0 : List Char) (k0 : List Char) (ve0 : List Char) (w0 : α)
    (rest : List ((List Char × List Char) × (List Char × α))) (trailing : Bool)
    (hk : KeyOk identifier ')' ke0 k0) (hv : ValOk vP ')' ve0 w0)
    (hall : ∀ en ∈ rest, KeyOk identifier ')' en.1.1 en.1.2 ∧ ValOk vP ')' en.2.1 en.2.2) :
    from_str (deserialize_struct name vP)
        (name ++ renderElems '(' (renderEntry ke0 ve0)
          (rest.map fun en => renderEntry en.1.1 en.2.1) trailing ')') =
      .ok ((k0, w0) :: rest.map fun en => (en.1.2, en.2.2)) := by
  have hlen : rest.length + 2 ≤
      (renderEntry ke0 ve0 ++
        renderTail (rest.map fun en => renderEntry en.1.1 en.2.1) trailing ')').length + 1 := by
    have h1 := renderTail_length (rest.map fun en => renderEntry en.1.1 en.2.1) trailing ')'
    have h2 : 1 ≤ (renderEntry ke0 ve0).length := by
      cases ke0 with
      | nil => exact absurd rfl hk.1
      | cons c cs => simp [renderEntry]
    simp only [List.length_append, List.length_map] at h1 ⊢
    omega
  have hfirst := mapEntries_first identifier vP ')' (by decide) (by decide) ke0 k0 ve0 w0 rest
    trailing hk hv hall
    ((renderEntry ke0 ve0 ++
      renderTail (rest.map fun en => renderEntry en.1.1 en.2.1) trailing ')').length + 1) hlen
  have hbc : bytesComma [')'] = [')'] := bytesComma_id (by decide) (by decide) []
  simp only [List.length_append] at hfirst
  unfold from_str deserialize_struct renderElems
  rw [show name ++ '(' ::
      (renderEntry ke0 ve0 ++
        renderTail (rest.map fun en => renderEntry en.1.1 en.2.1) trailing ')') =
      name ++ ('(' ::
        (renderEntry ke0 ve0 ++
          renderTail (rest.map fun en => renderEntry en.1.1 en.2.1) trailing ')')) from rfl,
    consumeOpt_self_append]
  simp only [litMatch, if_pos rfl]
  simp [hfirst, hbc, litMatch, endCheck, skipWs]

theorem isDigit_not_ws {c : Char} (h : c.isDigit = true) : isWsChar c = false := by
  by_contra hc
  simp only [Bool.not_eq_false] at hc
  simp only [isWsChar, Bool.or_eq_true, decide_eq_true_eq] at hc
  rcases hc with ((rfl | rfl) | rfl) | rfl <;> exact absurd h (by decide)

theorem isDigit_ne_comma {c : Char} (h : c.isDigit = true) : c ≠ ',' := by
  intro hc
  rw [hc] at h
  exact absurd h (by decide)

theorem isIdentChar_not_ws {c : Char} (h : isIdentChar c = true) : isWsChar c = false := by
  by_contra hc
  simp only [Bool.not_eq_false] at hc
  simp only [isWsChar, Bool.or_eq_true, decide_eq_true_eq] at hc
  rcases hc with ((rfl | rfl) | rfl) | rfl <;> exact absurd h (by decide)

theorem isIdentChar_ne_comma {c : Char} (h : isIdentChar c = true) : c ≠ ',' := by
  intro hc
  rw [hc] at h
  exact absurd h (by decide)

theorem digitsScan_append (e tail : List Char)
    (hdig : ∀ c ∈ e, c.isDigit = true)
    (ht : ∀ c, tail.head? = some c → c.isDigit = false) :
    digitsScan (e ++ tail) = (e, tail) := by
  induction e with
  | nil =>
    cases tail with
    | nil => rfl
    | cons c t => simp [digitsScan, ht c rfl]
  | cons c cs ih =>
    have hc := hdig c (by simp)
    simp [digitsScan, hc, ih fun d hd => hdig d (by simp [hd])]

theorem identScan_append (e tail : List Char)
    (hid : ∀ c ∈ e, isIdentChar c = true)
    (ht : ∀ c, tail.head? = some c → isIdentChar c = false) :
    identScan (e ++ tail) = (e, tail) := by
  induction e with
  | nil =>
    cases tail with
    | nil => rfl
    | cons c t => simp [identScan, ht c rfl]
  | cons c cs ih =>
    have hc := hid c (by simp)
    simp [identScan, hc, ih fun d hd => hid d (by simp [hd])]

theorem signed_integer_digits (w : Nat) (e tail : List Char) (he : e ≠ [])
    (hdig : ∀ c ∈ e, c.isDigit = true)
    (ht : ∀ c, tail.head? = some c → c.isDigit = false) :
    signed_integer w (e ++ tail) = .ok (wrapSigned w (digitsToNat e), tail) := by
  have hscan := digitsScan_append e tail hdig ht
  cases e with
  | nil => exact absurd rfl he
  | cons c cs =>
    have hc : c.isDigit = true := hdig c (by simp)
    have hcm : c ≠ '-' := by
      intro h
      rw [h] at hc
      exact absurd hc (by decide)
    simp only [List.cons_append] at hscan
    unfold signed_integer
    simp [hcm, hscan]

theorem identifier_append (e tail : List Char) (he : e ≠ [])
    (hid : ∀ c ∈ e, isIdentChar c = true)
    (ht : ∀ c, tail.head? = some c → isIdentChar c = false) :
    identifier (e ++ tail) = .ok (e, tail) := by
  have hscan := identScan_append e tail hid ht
  unfold identifier
  rw [hscan]
  cases e with
  | nil => exact absurd rfl he
  | cons c cs => rfl

theorem elemOk_int (t : Char) (htd : t.isDigit = false) (htc : t ≠ ',')
    (e : List Char) (he : e ≠ []) (hdig : ∀ c ∈ e, c.isDigit = true) :
    ElemOk deserialize_i64 t e (wrapSigned 64 (digitsToNat e)) := by
  refine ⟨he, ?_, ?_⟩
  · intro c hc
    have hcd : c.isDigit = true := by
      cases e with
      | nil => exact absurd rfl he
      | cons d ds =>
        obtain rfl : d = c := by simpa using hc
        exact hdig d (by simp)
    refine ⟨isDigit_not_ws hcd, ?_, isDigit_ne_comma hcd⟩
    intro hct
    rw [hct] at hcd
    rw [hcd] at htd
    exact absurd htd (by simp)
  · intro tail htail
    apply signed_integer_digits 64 e tail he hdig
    intro c hc
    rcases htail with h | h <;> rw [h] at hc <;> obtain rfl := Option.some.inj hc
    · decide
    · exact htd

theorem keyOk_int (t : Char) (htd : t.isDigit = false)
    (e : List Char) (he : e ≠ []) (hdig : ∀ c ∈ e, c.isDigit = true) :
    KeyOk deserialize_i64 t e (wrapSigned 64 (digitsToNat e)) := by
  refine ⟨he, ?_, ?_⟩
  · intro c hc
    have hcd : c.isDigit = true := by
      cases e with
      | nil => exact absurd rfl he
      | cons d ds =>
        obtain rfl : d = c := by simpa using hc
        exact hdig d (by simp)
    refine ⟨isDigit_not_ws hcd, ?_, isDigit_ne_comma hcd⟩
    intro hct
    rw [hct] at hcd
    rw [hcd] at htd
    exact absurd htd (by simp)
  · intro tail htail
    apply signed_integer_digits 64 e tail he hdig
    intro c hc
    rw [htail] at hc
    obtain rfl := Option.some.inj hc
    decide

theorem valOk_int (t : Char) (htd : t.isDigit = false)
    (e : List Char) (he : e ≠ []) (hdig : ∀ c ∈ e, c.isDigit = true) :
    ValOk deserialize_i64 t e (wrapSigned 64 (digitsToNat e)) := by
  refine ⟨he, ?_, ?_⟩
  · intro c hc
    have hcd : c.isDigit = true := by
      cases e with
      | nil => exact absurd rfl he
      | cons d ds =>
        obtain rfl : d = c := by simpa using hc
        exact hdig d (by simp)
    exact isDigit_not_ws hcd
  · intro tail htail
    apply signed_integer_digits 64 e tail he hdig
    intro c hc
    rcases htail with h | h <;> rw [h] at hc <;> obtain rfl := Option.some.inj hc
    · decide
    · exact htd

theorem keyOk_identifier (t : Char) (hti : isIdentChar t = false)
    (e : List Char) (he : e ≠ []) (hid : ∀ c ∈ e, isIdentChar c = true) :
    KeyOk identifier t e e := by
  refine ⟨he, ?_, ?_⟩
  · intro c hc
    have hcd : isIdentChar c = true := by
      cases e with
      | nil => exact absurd rfl he
      | cons d ds =>
        obtain rfl : d = c := by simpa using hc
        exact hid d (by simp)
    refine ⟨isIdentChar_not_ws hcd, ?_, isIdentChar_ne_comma hcd⟩
    intro hct
    rw [hct] at hcd
    rw [hcd] at hti
    exact absurd hti (by simp)
  · intro tail htail
    apply identifier_append e tail he hid
    intro c hc
    rw [htail] at hc
    obtain rfl := Option.some.inj hc
    decide

/-- **C7** (corrected).  The spec claims that for every successfully decoding
sequence, tuple, record or map text, inserting one extra comma after the last
element/entry keeps the decoded value, and removing a trailing comma does
likewise.  That is false for texts that already carry a trailing comma (see
the counterexample: `"[1,2,]"` decodes but `"[1,2,,]"` does not).  The
corrected statement proved here: for every rendered comma-separated text with
well-behaved element texts, the rendering WITH one trailing comma and the one
WITHOUT decode to the same value — for sequences, tuples, maps and structs. -/
theorem trailing_comma_render_contract :
    (∀ (α : Type) (p : P α) (e0 : List Char) (v0 : α) (rest : List (List Char × α)),
        ElemOk p ']' e0 v0 → (∀ ev ∈ rest, ElemOk p ']' ev.1 ev.2) →
          from_str (deserialize_seq p)
              (renderElems '[' e0 (rest.map Prod.fst) true ']') =
            .ok (v0 :: rest.map Prod.snd) ∧
          from_str (deserialize_seq p)
              (renderElems '[' e0 (rest.map Prod.fst) false ']') =
            .ok (v0 :: rest.map Prod.snd)) ∧
    (∀ (α : Type) (p : P α) (e0 : List Char) (v0 : α) (rest : List (List Char × α)),
        ElemOk p ')' e0 v0 → (∀ ev ∈ rest, ElemOk p ')' ev.1 ev.2) →
          from_str (deserialize_tuple (rest.length + 1) p)
              (renderElems '(' e0 (rest.map Prod.fst) true ')') =
            .ok (v0 :: rest.map Prod.snd) ∧
          from_str (deserialize_tuple (rest.length + 1) p)
              (renderElems '(' e0 (rest.map Prod.fst) false ')') =
            .ok (v0 :: rest.map Prod.snd)) ∧
    (∀ (κ α : Type) (kP : P κ) (vP : P α) (ke0 : List Char) (k0 : κ)
        (ve0 : List Char) (w0 : α)
        (rest : List ((List Char × κ) × (List Char × α))),
        KeyOk kP '}' ke0 k0 → ValOk vP '}' ve0 w0 →
        (∀ en ∈ rest, KeyOk kP '}' en.1.1 en.1.2 ∧ ValOk vP '}' en.2.1 en.2.2) →
          from_str (deserialize_map kP vP)
              (renderElems '{' (renderEntry ke0 ve0)
                (rest.map fun en => renderEntry en.1.1 en.2.1) true '}') =
            .ok ((k0, w0) :: rest.map fun en => (en.1.2, en.2.2)) ∧
          from_str (deserialize_map kP vP)
              (renderElems '{' (renderEntry ke0 ve0)
                (rest.map fun en => renderEntry en.1.1 en.2.1) false '}') =
            .ok ((k0, w0) :: rest.map fun en => (en.1.2, en.2.2))) ∧
    (∀ (α : Type) (name : List Char) (vP : P α) (ke0 k0 ve0 : List Char) (w0 : α)
        (rest : List ((List Char × List Char) × (List Char × α))),
        KeyOk identifier ')' ke0 k0 → ValOk vP ')' ve0 w0 →
        (∀ en ∈ rest, KeyOk identifier ')' en.1.1 en.1.2 ∧ ValOk vP ')' en.2.1 en.2.2) →
          from_str (deserialize_struct name vP)
              (name ++ renderElems '(' (renderEntry ke0 ve0)
                (rest.map fun en => renderEntry en.1.1 en.2.1) true ')') =
            .ok ((k0, w0) :: rest.map fun en => (en.1.2, en.2.2)) ∧
          from_str (deserialize_struct name vP)
              (name ++ renderElems '(' (renderEntry ke0 ve0)
                (rest.map fun en => renderEntry en.1.1 en.2.1) false ')') =
            .ok ((k0, w0) :: rest.map fun en => (en.1.2, en.2.2))) := by
  refine ⟨?_, ?_, ?_, ?_⟩
  · intro α p e0 v0 rest h0 hall
    exact ⟨deserialize_seq_render p e0 v0 rest true h0 hall,
      deserialize_seq_render p e0 v0 rest false h0 hall⟩
  · intro α p e0 v0 rest h0 hall
    exact ⟨deserialize_tuple_render p e0 v0 rest true h0 hall,
      deserialize_tuple_render p e0 v0 rest false h0 hall⟩
  · intro κ α kP vP ke0 k0 ve0 w0 rest hk hv hall
    exact ⟨deserialize_map_render kP vP ke0 k0 ve0 w0 rest true hk hv hall,
      deserialize_map_render kP vP ke0 k0 ve0 w0 rest false hk hv hall⟩
  · intro α name vP ke0 k0 ve0 w0 rest hk hv hall
    exact ⟨deserialize_struct_render name vP ke0 k0 ve0 w0 rest true hk hv hall,
      deserialize_struct_render name vP ke0 k0 ve0 w0 rest false hk hv hall⟩

/-- **C7 counterexample** to the claim as literally stated: `"[1,2,]"`
decodes successfully, yet inserting exactly one additional comma after the
last element and before the closing delimiter (`"[1,2,,]"`) makes decoding
fail instead of returning the same value. -/
theorem trailing_comma_insertion_cex :
    from_str (deserialize_seq deserialize_i64) "[1,2,]".toList = .ok [1, 2] ∧
      from_str (deserialize_seq deserialize_i64) "[1,2,,]".toList =
        .error .ExpectedInteger := by
  exact ⟨by decide, by decide⟩

/-- Witness for the corrected trailing-comma contract at concrete texts:
each container text decodes identically with and without a trailing comma. -/
theorem trailing_comma_render_contract_witness :
    from_str (deserialize_seq deserialize_i64) "[1,2,]".toList = .ok [1, 2] ∧
    from_str (deserialize_seq deserialize_i64) "[1,2]".toList = .ok [1, 2] ∧
    from_str (deserialize_tuple 2 deserialize_i64) "(1,2,)".toList = .ok [1, 2] ∧
    from_str (deserialize_tuple 2 deserialize_i64) "(1,2)".toList = .ok [1, 2] ∧
    from_str (deserialize_map deserialize_i64 deserialize_i64) "{1:2,}".toList =
      .ok [(1, 2)] ∧
    from_str (deserialize_map deserialize_i64 deserialize_i64) "{1:2}".toList =
      .ok [(1, 2)] ∧
    from_str (deserialize_struct "Pt".toList deserialize_i64) "Pt(x:1,)".toList =
      .ok [("x".toList, 1)] ∧
    from_str (deserialize_struct "Pt".toList deserialize_i64) "Pt(x:1)".toList =
      .ok [("x".toList, 1)] := by
  have h1s : ElemOk deserialize_i64 ']' ['1'] (1 : Int) :=
    elemOk_int ']' (by decide) (by decide) ['1'] (by decide) (by decide)
  have halls : ∀ ev ∈ [((['2'] : List Char), (2 : Int))],
      ElemOk deserialize_i64 ']' ev.1 ev.2 := by
    intro ev hev
    simp only [List.mem_singleton] at hev
    subst hev
    exact elemOk_int ']' (by decide) (by decide) ['2'] (by decide) (by decide)
  have h1t : ElemOk deserialize_i64 ')' ['1'] (1 : Int) :=
    elemOk_int ')' (by decide) (by decide) ['1'] (by decide) (by decide)
  have hallt : ∀ ev ∈ [((['2'] : List Char), (2 : Int))],
      ElemOk deserialize_i64 ')' ev.1 ev.2 := by
    intro ev hev
    simp only [List.mem_singleton] at hev
    subst hev
    exact elemOk_int ')' (by decide) (by decide) ['2'] (by decide) (by decide)
  have hkm : KeyOk deserialize_i64 '}' ['1'] (1 : Int) :=
    keyOk_int '}' (by decide) ['1'] (by decide) (by decide)
  have hvm : ValOk deserialize_i64 '}' ['2'] (2 : Int) :=
    valOk_int '}' (by decide) ['2'] (by decide) (by decide)
  have hallm : ∀ en ∈ ([] : List ((List Char × Int) × (List Char × Int))),
      KeyOk deserialize_i64 '}' en.1.1 en.1.2 ∧
        ValOk deserialize_i64 '}' en.2.1 en.2.2 := by
    intro en hen
    simp at hen
  have hkst : KeyOk identifier ')' ['x'] ['x'] :=
    keyOk_identifier ')' (by decide) ['x'] (by decide) (by decide)
  have hvst : ValOk deserialize_i64 ')' ['1'] (1 : Int) :=
    valOk_int ')' (by decide) ['1'] (by decide) (by decide)
  have hallst : ∀ en ∈ ([] : List ((List Char × List Char) × (List Char × Int))),
      KeyOk identifier ')' en.1.1 en.1.2 ∧
        ValOk deserialize_i64 ')' en.2.1 en.2.2 := by
    intro en hen
    simp at hen
  obtain ⟨hs1, hs2⟩ := trailing_comma_render_contract.1 Int deserialize_i64
    ['1'] 1 [(['2'], 2)] h1s halls
  obtain ⟨ht1, ht2⟩ := trailing_comma_render_contract.2.1 Int deserialize_i64
    ['1'] 1 [(['2'], 2)] h1t hallt
  obtain ⟨hm1, hm2⟩ := trailing_comma_render_contract.2.2.1 Int Int
    deserialize_i64 deserialize_i64 ['1'] 1 ['2'] 2 [] hkm hvm hallm
  obtain ⟨hp1, hp2⟩ := trailing_comma_render_contract.2.2.2 Int
    "Pt".toList deserialize_i64 ['x'] ['x'] ['1'] 1 [] hkst hvst hallst
  exact ⟨hs1, hs2, ht1, ht2, hm1, hm2, hp1, hp2⟩

end Ron
